import Mathlib

/-!
# Verification of the repository-registry subsystem of `bot.py`

A shallow embedding of the registry subsystem of the Telegram bot in
`src/bot.py`: the identifier extractor (`extract_repos_from_text`), the
identifier validator (`validate_repo_exists`), the registry store
(`load_tracked` / `save_tracked` over the GitHub contents API), and the
reconciliation paths (`process_repo_addition`, `remove_cmd`,
`clearall_cmd`).  Pure Python functions become Lean functions; the loops
mutating local lists become structural recursions carrying the working
state; network calls are modelled by their observable interface (HTTP
status plus decoded body, or an explicit validator oracle passed in as a
function).
-/

namespace Bot

/-! ## Identifier Extractor (`extract_repos_from_text`, bot.py lines 49-55)

The Python function replaces commas and newlines by spaces and then runs
`re.findall` with the pattern
`(?:https?://github\.com/)?([A-Za-z0-9_.-]+)/([A-Za-z0-9_.-]+)`,
collecting the `owner/name` pairs into a set.  The scanner below is the
behaviour of that regex on this pattern: at each position it tries the
optional URL prefix (longer alternative first, falling back to a
prefix-less match, exactly as the backtracking engine does), then a
maximal run of identifier characters, a literal slash, and a second
maximal run.  On success the scan resumes after the match, otherwise one
character further. -/

/-- The character class `[A-Za-z0-9_.-]` of the extraction pattern
(ASCII letters, digits, underscore, dot, hyphen). -/
def isWordChar (c : Char) : Bool :=
  decide ((65 ≤ c.toNat ∧ c.toNat ≤ 90) ∨ (97 ≤ c.toNat ∧ c.toNat ≤ 122) ∨
    (48 ≤ c.toNat ∧ c.toNat ≤ 57) ∨ c.toNat = 95 ∨ c.toNat = 46 ∨ c.toNat = 45)

/-- `text.replace(',', ' ').replace('\n', ' ')`: the two separator
substitutions performed before pattern matching. -/
def normalizeText (s : String) : List Char :=
  (s.data.map (fun c => if c = ',' then ' ' else c)).map
    (fun c => if c = '\n' then ' ' else c)

/-- One attempt of the suffix `([A-Za-z0-9_.-]+)/([A-Za-z0-9_.-]+)` of the
pattern at the current position: a maximal non-empty run of word
characters, a slash, a second maximal non-empty run.  (Backtracking the
greedy first run is futile for this pattern: a shorter run is followed by
a word character, never by the required slash.)  Returns the two capture
groups and the remaining input. -/
def matchRest (cs : List Char) : Option (String × String × List Char) :=
  let o := cs.takeWhile isWordChar
  if o.isEmpty then none
  else
    match cs.dropWhile isWordChar with
    | [] => none
    | d :: cs2 =>
      if d = '/' then
        let n := cs2.takeWhile isWordChar
        if n.isEmpty then none
        else some (String.mk o, String.mk n, cs2.dropWhile isWordChar)
      else none

/-- The literal characters of the URL alternative `https://github.com/`. -/
def urlHeadHttps : List Char := "https://github.com/".data

/-- The literal characters of the URL alternative `http://github.com/`. -/
def urlHeadHttp : List Char := "http://github.com/".data

/-- The optional group `(?:https?://github\.com/)?`: if one of the two
literal URL heads starts the input, consume it.  (Greedy `s?` tries the
`https` form first; at any given position at most one form can match.) -/
def tryUrlHead (cs : List Char) : Option (List Char) :=
  if urlHeadHttps.isPrefixOf cs then some (cs.drop urlHeadHttps.length)
  else if urlHeadHttp.isPrefixOf cs then some (cs.drop urlHeadHttp.length)
  else none

/-- One match attempt of the full pattern at the current position: with
the URL head consumed when it is present (falling back, as the regex
engine's backtracking does, to the empty alternative of the optional
group when the tail fails after the head), otherwise directly. -/
def matchAt (cs : List Char) : Option (String × String × List Char) :=
  match tryUrlHead cs with
  | some cs2 =>
    match matchRest cs2 with
    | some r => some r
    | none => matchRest cs
  | none => matchRest cs

/-- The `re.findall` scan, fuelled for structural recursion: try a match
at the current position; on success record the groups and continue after
the match, on failure advance one character.  `fuel` bounds the number of
steps; every step consumes at least one character, so `cs.length` fuel is
always enough (see `findall_cons`). -/
def findallAux : Nat → List Char → List (String × String)
  | 0, _ => []
  | _ + 1, [] => []
  | fuel + 1, c :: cs =>
    match matchAt (c :: cs) with
    | some (o, n, rest) => (o, n) :: findallAux fuel rest
    | none => findallAux fuel cs

/-- `re.findall(pattern, text)`: the list of captured pairs in scan
order. -/
def findall (cs : List Char) : List (String × String) :=
  findallAux cs.length cs

/-- The candidate identifiers of one message, as a list in first-occurrence
order: each captured pair rendered as `owner/name`, duplicates collapsed.
(Python collects them into a `set`; `dedup` is the model's deterministic
enumeration of that set, which the reconciliation loops iterate over.) -/
def extractList (text : String) : List String :=
  ((findall (normalizeText text)).map (fun p => p.1 ++ "/" ++ p.2)).dedup

/-- `extract_repos_from_text(text)`: the set of canonical identifiers
found in the text (bot.py lines 49-55). -/
def extract_repos_from_text (text : String) : Finset String :=
  (extractList text).toFinset

/-- The input transformation of claim C8: replacing commas and newlines
by spaces in the input text. -/
def replaceSeparators (s : String) : String :=
  String.mk (s.data.map (fun c => if c = ',' ∨ c = '\n' then ' ' else c))

/-- A text laying out a list of tokens separated by single spaces: the
"already-canonical owner/name tokens" input of claim C8. -/
def joinSpace : List String → String
  | [] => ""
  | [s] => s
  | s :: rest => s ++ " " ++ joinSpace rest

/-- A canonical identifier: one non-empty run of word characters, a
slash, a second non-empty run — the normalized `owner/name` shape of
the data model. -/
def isCanonicalId (s : String) : Bool :=
  match s.data.dropWhile isWordChar with
  | [] => false
  | d :: n =>
    d == '/' && !(s.data.takeWhile isWordChar).isEmpty && !n.isEmpty && n.all isWordChar

/-! ## Identifier Validator (`validate_repo_exists`, bot.py lines 57-60)

The Python function issues `requests.get` on the repository-metadata
endpoint and returns `r.ok`.  The observable input is the response
status; `r.ok` is the `requests` library's flag, true exactly when
`raise_for_status()` would not raise, i.e. when the status is not a
4xx or 5xx code. -/

/-- `Response.ok` of the `requests` library: `raise_for_status()` raises
precisely for status codes in `[400, 600)`, and `ok` is true when it
would not raise. -/
def response_ok (status : Nat) : Bool :=
  if 400 ≤ status ∧ status < 600 then false else true

/-- `validate_repo_exists(repo)` as a function of the status of the
provider lookup response: the function returns `r.ok` (bot.py line 60). -/
def validate_repo_exists (status : Nat) : Bool :=
  response_ok status

/-! ## Registry Store (`load_tracked` / `save_tracked`, bot.py lines 24-47)

`load_tracked` GETs the contents-API URL of `data/tracked.json`: a 404
yields `([], None)`; any other error status raises
(`raise_for_status`); otherwise the body's `content` field is
base64-decoded (with `'==='` appended — the lenient legacy decoder
discards characters outside the alphabet, including newlines and excess
padding), JSON-parsed, and the `repos` field returned together with the
body's `sha` (the version token).  `save_tracked` JSON-serializes
`{"repos": repos}` with `indent=2`, base64-encodes it, and PUTs it with
the expected `sha`; the GitHub API rejects a stale `sha` with a conflict
status, and on success the response carries the new content `sha`,
which `save_tracked` returns. -/

/-- The base64 alphabet character of a sextet (`A-Z`, `a-z`, `0-9`,
`+`, `/`). -/
def b64CharOf (n : Nat) : Char :=
  if n < 26 then Char.ofNat (65 + n)
  else if n < 52 then Char.ofNat (97 + (n - 26))
  else if n < 62 then Char.ofNat (48 + (n - 52))
  else if n = 62 then '+'
  else '/'

/-- The sextet of a base64 alphabet character; `none` for characters
outside the alphabet (which the lenient decoder discards). -/
def b64IndexOf (c : Char) : Option Nat :=
  if 65 ≤ c.toNat ∧ c.toNat ≤ 90 then some (c.toNat - 65)
  else if 97 ≤ c.toNat ∧ c.toNat ≤ 122 then some (26 + (c.toNat - 97))
  else if 48 ≤ c.toNat ∧ c.toNat ≤ 57 then some (52 + (c.toNat - 48))
  else if c = '+' then some 62
  else if c = '/' then some 63
  else none

/-- `base64.b64encode` on a byte list: three bytes become four alphabet
characters; a final group of one or two bytes is padded with `=`. -/
def b64encodeBytes : List Nat → List Char
  | [] => []
  | [b1] => [b64CharOf (b1 / 4), b64CharOf (b1 % 4 * 16), '=', '=']
  | [b1, b2] =>
    [b64CharOf (b1 / 4), b64CharOf (b1 % 4 * 16 + b2 / 16), b64CharOf (b2 % 16 * 4), '=']
  | b1 :: b2 :: b3 :: rest =>
    b64CharOf (b1 / 4) :: b64CharOf (b1 % 4 * 16 + b2 / 16) ::
      b64CharOf (b2 % 16 * 4 + b3 / 64) :: b64CharOf (b3 % 64) :: b64encodeBytes rest

/-- Reassembling bytes from a run of sextets: each full group of four
sextets yields three bytes; a trailing group of three or two sextets
yields two bytes or one (the final partial group of a padded encoding). -/
def b64BytesOfSextets : List Nat → List Nat
  | s1 :: s2 :: s3 :: s4 :: rest =>
    (s1 * 4 + s2 / 16) :: (s2 % 16 * 16 + s3 / 4) :: (s3 % 4 * 64 + s4) :: b64BytesOfSextets rest
  | [s1, s2, s3] => [s1 * 4 + s2 / 16, s2 % 16 * 16 + s3 / 4]
  | [s1, s2] => [s1 * 4 + s2 / 16]
  | _ => []

/-- `base64.b64decode` in its lenient legacy mode, the one the code
relies on by appending `'==='`: characters outside the alphabet
(newlines, padding `=`) are discarded, and the surviving sextets are
reassembled into bytes. -/
def b64decodeLenient (cs : List Char) : List Nat :=
  b64BytesOfSextets (cs.filterMap b64IndexOf)

/-- A hexadecimal digit character as written by `json.dumps` in `\uXXXX`
escapes (lowercase). -/
def jsonHexDigit (n : Nat) : Char :=
  if n < 10 then Char.ofNat (48 + n) else Char.ofNat (87 + n)

/-- Four hexadecimal digits of a code unit. -/
def jsonHex4 (n : Nat) : List Char :=
  [jsonHexDigit (n / 4096 % 16), jsonHexDigit (n / 256 % 16),
   jsonHexDigit (n / 16 % 16), jsonHexDigit (n % 16)]

/-- The escaping of one character inside a JSON string as performed by
`json.dumps` with its default `ensure_ascii=True`: the two-character
escapes of the escape table, `\uXXXX` for remaining control characters
and for all non-ASCII code points (as a surrogate pair beyond the basic
plane); every other ASCII character stands for itself. -/
def jsonEscapeChar (c : Char) : List Char :=
  if c = '"' then ['\\', '"']
  else if c = '\\' then ['\\', '\\']
  else if c.toNat = 8 then ['\\', 'b']
  else if c.toNat = 12 then ['\\', 'f']
  else if c = '\n' then ['\\', 'n']
  else if c.toNat = 13 then ['\\', 'r']
  else if c.toNat = 9 then ['\\', 't']
  else if c.toNat < 32 then '\\' :: 'u' :: jsonHex4 c.toNat
  else if c.toNat < 128 then [c]
  else if c.toNat < 65536 then '\\' :: 'u' :: jsonHex4 c.toNat
  else
    '\\' :: 'u' :: jsonHex4 (55296 + (c.toNat - 65536) / 1024) ++
      '\\' :: 'u' :: jsonHex4 (56320 + (c.toNat - 65536) % 1024)

/-- A JSON string literal: the escaped characters between double
quotes. -/
def jsonQuoteString (s : String) : List Char :=
  '"' :: (s.data.map jsonEscapeChar).flatten ++ ['"']

/-- The element lines of the serialized `repos` array at `indent=2`:
items separated by `,` a newline and four spaces of indentation. -/
def jsonItemsChars : List String → List Char
  | [] => []
  | [s] => jsonQuoteString s
  | s :: rest =>
    jsonQuoteString s ++ ',' :: '\n' :: ' ' :: ' ' :: ' ' :: ' ' :: jsonItemsChars rest

/-- `json.dumps({"repos": repos}, indent=2)` (bot.py line 39): the exact
document text, with the empty array rendered inline. -/
def jsonDumpsTracked (repos : List String) : List Char :=
  if repos.isEmpty then
    '\x7b' :: '\n' :: ' ' :: ' ' :: jsonQuoteString "repos" ++
      ':' :: ' ' :: '[' :: ']' :: '\n' :: ['\x7d']
  else
    '\x7b' :: '\n' :: ' ' :: ' ' :: jsonQuoteString "repos" ++
      ':' :: ' ' :: '[' :: '\n' :: ' ' :: ' ' :: ' ' :: ' ' :: jsonItemsChars repos ++
      '\n' :: ' ' :: ' ' :: ']' :: '\n' :: ['\x7d']

/-- JSON whitespace. -/
def isJsonWs (c : Char) : Bool :=
  c = ' ' || c = '\t' || c = '\n' || c = '\r'

/-- Skip JSON whitespace. -/
def skipJsonWs (cs : List Char) : List Char :=
  cs.dropWhile isJsonWs

/-- The body of a JSON string after its opening quote, as read by
`json.loads`: plain characters up to the closing quote, the table
escapes, and `\uXXXX` scalar code points (surrogate code units — which
Lean's `Char` cannot carry, and which never occur in the ASCII
documents the bot writes — are outside the modelled domain and
rejected).  Returns the decoded characters and the input after the
closing quote. -/
def jsonHexVal (c : Char) : Option Nat :=
  if 48 ≤ c.toNat ∧ c.toNat ≤ 57 then some (c.toNat - 48)
  else if 97 ≤ c.toNat ∧ c.toNat ≤ 102 then some (c.toNat - 87)
  else if 65 ≤ c.toNat ∧ c.toNat ≤ 70 then some (c.toNat - 55)
  else none

/-- The two-character escapes of the JSON string grammar
(`\" \\ \/ \b \f \n \r \t`). -/
def jsonTableEscape (e : Char) : Option Char :=
  if e = '"' then some '"'
  else if e = '\\' then some '\\'
  else if e = '/' then some '/'
  else if e = 'b' then some (Char.ofNat 8)
  else if e = 'f' then some (Char.ofNat 12)
  else if e = 'n' then some '\n'
  else if e = 'r' then some (Char.ofNat 13)
  else if e = 't' then some (Char.ofNat 9)
  else none

/-- The value of the four hex digits of a `\uXXXX` escape. -/
def jsonHex4Val (h1 h2 h3 h4 : Char) : Option Nat :=
  match jsonHexVal h1, jsonHexVal h2, jsonHexVal h3, jsonHexVal h4 with
  | some v1, some v2, some v3, some v4 => some (v1 * 4096 + v2 * 256 + v3 * 16 + v4)
  | _, _, _, _ => none

def parseStringBody : List Char → Option (List Char × List Char)
  | [] => none
  | c :: rest =>
    if c = '"' then some ([], rest)
    else if c = '\\' then
      match rest with
      | [] => none
      | e :: rest2 =>
        if e = 'u' then
          match rest2 with
          | h1 :: h2 :: h3 :: h4 :: rest3 =>
            match jsonHex4Val h1 h2 h3 h4 with
            | some code =>
              if code < 55296 ∨ (57343 < code ∧ code < 1114112) then
                (parseStringBody rest3).map (fun r => (Char.ofNat code :: r.1, r.2))
              else none
            | none => none
          | _ => none
        else
          match jsonTableEscape e with
          | some ch => (parseStringBody rest2).map (fun r => (ch :: r.1, r.2))
          | none => none
    else if c.toNat < 32 then none
    else (parseStringBody rest).map (fun r => (c :: r.1, r.2))

/-- The element loop of the `repos` array: a string, then either `,` and
the next element or the closing `]`.  `fuel` bounds the iterations; each
element consumes at least its opening quote, so the input length is
always enough fuel. -/
def parseItemsAux : Nat → List Char → Option (List String × List Char)
  | 0, _ => none
  | fuel + 1, '"' :: rest =>
    match parseStringBody rest with
    | none => none
    | some (content, rest2) =>
      match skipJsonWs rest2 with
      | ',' :: rest3 =>
        match parseItemsAux fuel (skipJsonWs rest3) with
        | some (items, rest4) => some (String.mk content :: items, rest4)
        | none => none
      | ']' :: rest3 => some ([String.mk content], rest3)
      | _ => none
  | _ + 1, _ => none

/-- `json.loads` composed with `.get("repos", [])` on the persisted
tracked-document schema `{"repos": [<string>, ...]}` — the only
document shape the bot ever writes; the whole input must be consumed up
to trailing whitespace, as `json.loads` demands. -/
def jsonParseTracked (cs : List Char) : Option (List String) :=
  match skipJsonWs cs with
  | '\x7b' :: r1 =>
    match skipJsonWs r1 with
    | '"' :: r2 =>
      match parseStringBody r2 with
      | some (key, r3) =>
        if key = "repos".data then
          match skipJsonWs r3 with
          | ':' :: r4 =>
            match skipJsonWs r4 with
            | '[' :: r5 =>
              match skipJsonWs r5 with
              | [] => none
              | d :: r6 =>
                if d = ']' then
                  match skipJsonWs r6 with
                  | '\x7d' :: r7 => if (skipJsonWs r7).isEmpty then some [] else none
                  | _ => none
                else
                  match parseItemsAux ((d :: r6).length) (d :: r6) with
                  | some (items, r7) =>
                    match skipJsonWs r7 with
                    | '\x7d' :: r8 => if (skipJsonWs r8).isEmpty then some items else none
                    | _ => none
                  | none => none
            | _ => none
          | _ => none
        else none
      | none => none
    | _ => none
  | _ => none

/-- `bytes.decode()` of the decoded base64 payload, modelled on the
ASCII range (every document the bot writes is pure ASCII, `json.dumps`
escaping all non-ASCII): bytes below 128 are their code points,
anything else is outside the modelled domain. -/
def stringOfBytes (bs : List Nat) : Option (List Char) :=
  if bs.all (fun b => b < 128) then some (bs.map Char.ofNat) else none

/-- The decoding pipeline of `load_tracked` on the `content` field of
the response body (bot.py line 32): append `'==='`, base64-decode
leniently, decode the bytes, JSON-parse, and take the `repos` field. -/
def decodeTrackedDoc (content : String) : Option (List String) :=
  match stringOfBytes (b64decodeLenient (content.data ++ ['=', '=', '='])) with
  | none => none
  | some cs => jsonParseTracked cs

/-- The observable part of a contents-API GET response: the HTTP status
and, when a document is present, the body's `content` and `sha`
fields. -/
structure GetResponse where
  status : Nat
  content : String
  sha : String
deriving DecidableEq

/-- A whole-operation store failure: an HTTP error propagated by
`raise_for_status` (or a conflict on write), or a body that does not
decode. -/
inductive StoreError
  | httpError (status : Nat)
  | decodeError
deriving DecidableEq

/-- `load_tracked()` (bot.py lines 24-34) as a function of the GET
response: 404 yields the empty registry and no version token;
any other error status raises; otherwise the body is decoded and the
`repos` list returned together with the body's `sha`. -/
def load_tracked (resp : GetResponse) : Except StoreError (List String × Option String) :=
  if resp.status = 404 then .ok ([], none)
  else if 400 ≤ resp.status ∧ resp.status < 600 then .error (.httpError resp.status)
  else
    match decodeTrackedDoc resp.content with
    | some repos => .ok (repos, some resp.sha)
    | none => .error .decodeError

/-- The remote file behind the contents API: absent, or a document with
its base64 `content` string and its `sha` version token. -/
structure RemoteStore where
  doc : Option (String × String)
deriving DecidableEq

/-- The GET response the store produces: 404 when the document is
absent, otherwise 200 with the document's `content` and `sha`. -/
def storeGet (st : RemoteStore) : GetResponse :=
  match st.doc with
  | none => ⟨404, "", ""⟩
  | some (content, sha) => ⟨200, content, sha⟩

/-- The version token the store currently holds. -/
def storeSha (st : RemoteStore) : Option String :=
  st.doc.map (fun d => d.2)

/-- The PUT of the contents API: the supplied expected `sha` must equal
the current one (no `sha` for a creating write), else the write is
rejected with a 409 conflict; on success the document becomes the new
content under the server-assigned new `sha`. -/
def storePut (st : RemoteStore) (content : String) (expectedSha : Option String)
    (newSha : String) : Except StoreError RemoteStore :=
  if storeSha st = expectedSha then .ok ⟨some (content, newSha)⟩
  else .error (.httpError 409)

/-- `save_tracked(repos, sha)` (bot.py lines 36-47): serialize
`{"repos": repos}` at `indent=2`, base64-encode the UTF-8 bytes, PUT
with the expected `sha`, and return the new content `sha` from the
response.  `newSha` stands for the token the server assigns to the new
content. -/
def save_tracked (repos : List String) (sha : Option String) (st : RemoteStore)
    (newSha : String) : Except StoreError (RemoteStore × String) :=
  let content := String.mk (b64encodeBytes ((jsonDumpsTracked repos).map Char.toNat))
  match storePut st content sha newSha with
  | .ok st2 => .ok (st2, newSha)
  | .error e => .error e

/-! ## Registry Reconciler
(`process_repo_addition`, `remove_cmd`, `clearall_cmd`; bot.py lines
96-168 and 200-206)

The loops of the Python handlers mutate the local lists `repos`,
`added`/`skipped`/`failed` (respectively `actually_removed`/`not_found`);
here they are structural recursions over the candidate list carrying the
working set.  The validator is passed in as an oracle
`String → Except String Bool`: `.ok b` is a completed
`validate_repo_exists` call, `.error e` an exception with message `e`
(caught by the `except` clause at the call site, bot.py line 157). -/

/-- The per-item outcome buckets of one add batch, plus the working set
after the loop. -/
structure AddOut where
  repos : List String
  added : List String
  skipped : List String
  failed : List String
deriving DecidableEq

/-- The `for repo in repos_to_check` loop of `process_repo_addition`
(bot.py lines 147-158): an already-present candidate is skipped; an
absent one is validated — confirmed existence appends it to the working
set and to `added`, denial puts it into `failed`, and an exception puts
it into `failed` with the error detail attached
(`f"{repo} (error: {str(e)})"`). -/
def addLoop (validate : String → Except String Bool) :
    List String → List String → AddOut
  | [], repos => ⟨repos, [], [], []⟩
  | cand :: cs, repos =>
    if cand ∈ repos then
      let r := addLoop validate cs repos
      ⟨r.repos, r.added, cand :: r.skipped, r.failed⟩
    else
      match validate cand with
      | .ok true =>
        let r := addLoop validate cs (repos ++ [cand])
        ⟨r.repos, cand :: r.added, r.skipped, r.failed⟩
      | .ok false =>
        let r := addLoop validate cs repos
        ⟨r.repos, r.added, r.skipped, cand :: r.failed⟩
      | .error e =>
        let r := addLoop validate cs repos
        ⟨r.repos, r.added, r.skipped, (cand ++ " (error: " ++ e ++ ")") :: r.failed⟩

/-- The outcome of one add operation: no candidates extracted, batch
over the ceiling, or a per-item report with the write flag. -/
inductive AddOutcome
  | noRepos
  | tooMany
  | report (out : AddOut) (wrote : Bool)
deriving DecidableEq

/-- `process_repo_addition(update, text)` (bot.py lines 133-168) as a
function of the validator oracle, the just-read registry and the
message text; the second component is the registry as stored after the
operation — written back via `save_tracked` exactly when at least one
candidate was added, left untouched otherwise. -/
def process_repo_addition (validate : String → Except String Bool)
    (registry : List String) (text : String) : AddOutcome × List String :=
  let cands := extractList text
  if cands.isEmpty then (.noRepos, registry)
  else if 20 < cands.length then (.tooMany, registry)
  else
    let out := addLoop validate cands registry
    (.report out (!out.added.isEmpty), if out.added.isEmpty then registry else out.repos)

/-- The per-item outcome buckets of one remove batch, plus the working
set after the loop. -/
structure RemoveOut where
  repos : List String
  removed : List String
  notTracked : List String
deriving DecidableEq

/-- The `for repo in repos_to_remove` loop of `remove_cmd` (bot.py
lines 112-117): a tracked candidate is removed from the working set
(`list.remove` deletes the first occurrence) and recorded in
`actually_removed`; an untracked one goes to `not_found`. -/
def removeLoop : List String → List String → RemoveOut
  | [], repos => ⟨repos, [], []⟩
  | cand :: cs, repos =>
    if cand ∈ repos then
      let r := removeLoop cs (repos.erase cand)
      ⟨r.repos, cand :: r.removed, r.notTracked⟩
    else
      let r := removeLoop cs repos
      ⟨r.repos, r.removed, cand :: r.notTracked⟩

/-- The outcome of one remove operation. -/
inductive RemoveOutcome
  | noRepos
  | report (out : RemoveOut) (wrote : Bool)
deriving DecidableEq

/-- `remove_cmd` (bot.py lines 102-125) as a function of the just-read
registry and the argument text; the second component is the registry as
stored after the operation — written back exactly when at least one
candidate was removed. -/
def remove_cmd (registry : List String) (text : String) :
    RemoveOutcome × List String :=
  let cands := extractList text
  if cands.isEmpty then (.noRepos, registry)
  else
    let out := removeLoop cands registry
    (.report out (!out.removed.isEmpty), if out.removed.isEmpty then registry else out.repos)

/-- One observable registry-store operation of a handler: a
`load_tracked` read, or a `save_tracked` write of a working set with an
expected version token. -/
inductive StoreOp
  | read
  | write (repos : List String) (sha : Option String)
deriving DecidableEq

/-- `clearall_cmd` (bot.py lines 200-206) as a function of the caller
identity, the configured admin identity, and the state the fresh read
would return: a non-admin caller is denied before any store access; the
admin caller reads, then unconditionally writes the empty list with the
token from that read.  Returns the authorization flag, the registry as
stored afterwards, and the trace of store operations performed. -/
def clearall_cmd (callerId adminId : Int) (registry : List String)
    (sha : Option String) : Bool × List String × List StoreOp :=
  if callerId ≠ adminId then (false, registry, [])
  else (true, [], [.read, .write [] sha])

/-! ## Spec-level propositions

The per-claim properties of the add and remove paths, bundled as named
propositions so the claim theorems and their witnesses state the same
conjunction. -/

/-- The add-path property of one batch (claim C1): the operation reports
per-item outcomes; a candidate already in the just-read registry is
skipped and never appended; an absent candidate is added when the
validator confirms existence, failed when it denies or errors; the
write flag is set and the stored registry replaced by the extended
working set exactly when at least one candidate was added; and the
stored registry stays duplicate-free. -/
def AddPathSpec (v : String → Except String Bool) (registry : List String)
    (text : String) : Prop :=
  process_repo_addition v registry text =
    (.report (addLoop v (extractList text) registry)
      (decide ((addLoop v (extractList text) registry).added ≠ [])),
     if (addLoop v (extractList text) registry).added = [] then registry
     else registry ++ (addLoop v (extractList text) registry).added) ∧
  (∀ c ∈ extractList text,
    (c ∈ registry →
      c ∈ (addLoop v (extractList text) registry).skipped ∧
      c ∉ (addLoop v (extractList text) registry).added) ∧
    (c ∉ registry →
      (v c = .ok true → c ∈ (addLoop v (extractList text) registry).added) ∧
      (v c = .ok false → c ∈ (addLoop v (extractList text) registry).failed) ∧
      (∀ e, v c = .error e →
        (c ++ " (error: " ++ e ++ ")") ∈ (addLoop v (extractList text) registry).failed))) ∧
  (process_repo_addition v registry text).2.Nodup

/-- The failure-containment property of one add batch (claim C5): the
batch is never aborted — it still yields a per-item report — a
validation exception puts its candidate into the `failed` bucket with
the error detail attached, and every candidate of the batch lands in one
of the three outcome buckets. -/
def AddErrorSpec (v : String → Except String Bool) (registry : List String)
    (text : String) : Prop :=
  (process_repo_addition v registry text).1 =
    .report (addLoop v (extractList text) registry)
      (decide ((addLoop v (extractList text) registry).added ≠ [])) ∧
  (∀ c ∈ extractList text, c ∉ registry → ∀ e, v c = .error e →
    (c ++ " (error: " ++ e ++ ")") ∈ (addLoop v (extractList text) registry).failed) ∧
  (∀ c ∈ extractList text,
    c ∈ (addLoop v (extractList text) registry).added ∨
    c ∈ (addLoop v (extractList text) registry).skipped ∨
    c ∈ (addLoop v (extractList text) registry).failed ∨
    ∃ e, v c = .error e ∧
      (c ++ " (error: " ++ e ++ ")") ∈ (addLoop v (extractList text) registry).failed)

/-- The remove-path property of one batch (claim C2): the operation
reports per-item outcomes; a tracked candidate is removed from the
working set, an untracked one is reported as not tracked with no
change; the write flag is set exactly when at least one candidate was
removed; and when nothing was removed the stored registry is exactly
the one that was read. -/
def RemovePathSpec (registry : List String) (text : String) : Prop :=
  remove_cmd registry text =
    (.report (removeLoop (extractList text) registry)
      (decide ((removeLoop (extractList text) registry).removed ≠ [])),
     if (removeLoop (extractList text) registry).removed = [] then registry
     else (removeLoop (extractList text) registry).repos) ∧
  (∀ c ∈ extractList text,
    (c ∈ registry →
      c ∈ (removeLoop (extractList text) registry).removed ∧
      c ∉ (removeLoop (extractList text) registry).repos) ∧
    (c ∉ registry → c ∈ (removeLoop (extractList text) registry).notTracked)) ∧
  ((removeLoop (extractList text) registry).removed = [] →
    (remove_cmd registry text).2 = registry)

/-! ## C4: the validator's existence signal -/

/-- C4: the claim "returns true exactly when the provider lookup responds
with a 2xx status, and false for every other response status" is false on
the code: `validate_repo_exists` returns `r.ok`, which is also true for
the non-2xx status 301. -/
theorem c4_counterexample :
    validate_repo_exists 301 = true ∧ ¬(200 ≤ 301 ∧ 301 < 300) := by
  decide

/-- C4 (amended): `validate_repo_exists` returns true exactly when the
response status is not a client or server error (not in `[400, 600)`) —
`requests`' `ok` flag — so 2xx responses yield true, 4xx/5xx yield
false, and informational or redirect statuses such as 301 also yield
true. -/
theorem c4_validator_ok_iff (status : Nat) :
    validate_repo_exists status = true ↔ ¬(400 ≤ status ∧ status < 600) := by
  unfold validate_repo_exists response_ok
  split <;> simp_all

/-! ## C9: the clear path -/

/-- C9: a caller other than the designated admin identity is denied with
no store read or write and the registry untouched; the admin caller
reads, then unconditionally commits the empty identifier set with the
version token obtained from that fresh read, whatever the registry
held. -/
theorem c9_clear_auth (callerId adminId : Int) (registry : List String)
    (sha : Option String) :
    (callerId ≠ adminId →
      clearall_cmd callerId adminId registry sha = (false, registry, [])) ∧
    (callerId = adminId →
      clearall_cmd callerId adminId registry sha =
        (true, [], [.read, .write [] sha])) := by
  constructor <;> intro h <;> simp [clearall_cmd, h]

/-- C9 witness: a non-admin caller (1 ≠ 2) is denied without store
access; the admin caller (5 = 5) commits the empty set with the read's
token. -/
theorem c9_clear_auth_witness :
    clearall_cmd 1 2 ["a/b"] (some "s") = (false, ["a/b"], []) ∧
    clearall_cmd 5 5 ["a/b"] (some "s") = (true, [], [.read, .write [] (some "s")]) :=
  ⟨(c9_clear_auth 1 2 ["a/b"] (some "s")).1 (by decide),
   (c9_clear_auth 5 5 ["a/b"] (some "s")).2 rfl⟩

/-! ## C6: the store read -/

/-- C6: `load_tracked` returns the empty list and a null version token
on a 404, returns the decoded identifier list plus the body's version
token when the document is present, and propagates any non-404 HTTP
failure as a hard error. -/
theorem c6_load_tracked (resp : GetResponse) :
    (resp.status = 404 → load_tracked resp = .ok ([], none)) ∧
    (∀ repos, resp.status = 200 → decodeTrackedDoc resp.content = some repos →
      load_tracked resp = .ok (repos, some resp.sha)) ∧
    (resp.status ≠ 404 → 400 ≤ resp.status → resp.status < 600 →
      load_tracked resp = .error (.httpError resp.status)) := by
  refine ⟨fun h404 => ?_, fun repos h200 hdec => ?_, fun hne h4 h6 => ?_⟩
  · simp [load_tracked, h404]
  · simp [load_tracked, h200, hdec]
  · unfold load_tracked
    rw [if_neg hne, if_pos ⟨h4, h6⟩]

/-- C6 witness: the three cases at concrete responses — a 404, a 200
carrying the base64 document for `["a/b"]`, and a 500. -/
theorem c6_load_tracked_witness :
    load_tracked ⟨404, "", ""⟩ = .ok ([], none) ∧
    load_tracked ⟨200, "eyJyZXBvcyI6IFsiYS9iIl19", "sha1"⟩ = .ok (["a/b"], some "sha1") ∧
    load_tracked ⟨500, "", ""⟩ = .error (.httpError 500) :=
  ⟨(c6_load_tracked ⟨404, "", ""⟩).1 rfl,
   (c6_load_tracked ⟨200, "eyJyZXBvcyI6IFsiYS9iIl19", "sha1"⟩).2.1 ["a/b"] rfl (by decide),
   (c6_load_tracked ⟨500, "", ""⟩).2.2 (by decide) (by decide) (by decide)⟩

/-! ## C3: the batch ceiling -/

/-- The candidate count the Python `len` check sees equals the candidate
set's cardinality: the candidate list is deduplicated. -/
theorem extractList_length (text : String) :
    (extract_repos_from_text text).card = (extractList text).length := by
  unfold extract_repos_from_text
  exact List.toFinset_card_of_nodup (List.nodup_dedup _)

/-- C3: a batch of more than 20 distinct candidates is rejected
wholesale — for every validator oracle and every registry the result is
`tooMany` with the registry unchanged, so no validation outcome and no
write can depend on them — while a batch of exactly 20 is not
rejected. -/
theorem c3_batch_ceiling (validate : String → Except String Bool)
    (registry : List String) (text : String) :
    (20 < (extract_repos_from_text text).card →
      process_repo_addition validate registry text = (.tooMany, registry)) ∧
    ((extract_repos_from_text text).card = 20 →
      (process_repo_addition validate registry text).1 ≠ .tooMany) := by
  rw [extractList_length]
  constructor
  · intro hgt
    have hne : (extractList text).isEmpty = false := by
      cases h : extractList text with
      | nil => rw [h] at hgt; simp at hgt
      | cons a l => simp [h]
    simp [process_repo_addition, hne, hgt]
  · intro h20
    have hne : (extractList text).isEmpty = false := by
      cases h : extractList text with
      | nil => rw [h] at h20; simp at h20
      | cons a l => simp [h]
    have hle : ¬ 20 < (extractList text).length := by omega
    simp [process_repo_addition, hne, hle]

/-- C3 witness: a message with 21 distinct identifiers is rejected as
`tooMany` with the registry untouched, for a concrete validator and
registry; one with exactly 20 is not rejected. -/
theorem c3_batch_ceiling_witness :
    process_repo_addition (fun _ => .ok true) ["x/y"]
      "u0/r u1/r u2/r u3/r u4/r u5/r u6/r u7/r u8/r u9/r u10/r u11/r u12/r u13/r u14/r u15/r u16/r u17/r u18/r u19/r u20/r"
      = (.tooMany, ["x/y"]) ∧
    (process_repo_addition (fun _ => .ok true) ["x/y"]
      "u0/r u1/r u2/r u3/r u4/r u5/r u6/r u7/r u8/r u9/r u10/r u11/r u12/r u13/r u14/r u15/r u16/r u17/r u18/r u19/r").1
      ≠ .tooMany :=
  ⟨(c3_batch_ceiling (fun _ => .ok true) ["x/y"] _).1 (by decide),
   (c3_batch_ceiling (fun _ => .ok true) ["x/y"] _).2 (by decide)⟩

/-! ## The add loop -/

/-- Step equation of `addLoop` for a candidate already in the working
set: it is recorded in `skipped`, nothing else changes. -/
theorem addLoop_cons_mem (v : String → Except String Bool) (hd : String)
    (cs repos : List String) (h : hd ∈ repos) :
    addLoop v (hd :: cs) repos =
      ⟨(addLoop v cs repos).repos, (addLoop v cs repos).added,
       hd :: (addLoop v cs repos).skipped, (addLoop v cs repos).failed⟩ := by
  conv_lhs => unfold addLoop
  rw [if_pos h]

/-- Step equation of `addLoop` for an absent candidate whose validation
confirms existence: it is appended to the working set and recorded in
`added`. -/
theorem addLoop_cons_true (v : String → Except String Bool) (hd : String)
    (cs repos : List String) (h : hd ∉ repos) (hv : v hd = .ok true) :
    addLoop v (hd :: cs) repos =
      ⟨(addLoop v cs (repos ++ [hd])).repos, hd :: (addLoop v cs (repos ++ [hd])).added,
       (addLoop v cs (repos ++ [hd])).skipped, (addLoop v cs (repos ++ [hd])).failed⟩ := by
  conv_lhs => unfold addLoop
  rw [if_neg h, hv]

/-- Step equation of `addLoop` for an absent candidate whose validation
denies existence: it is recorded in `failed`, the working set is
unchanged. -/
theorem addLoop_cons_false (v : String → Except String Bool) (hd : String)
    (cs repos : List String) (h : hd ∉ repos) (hv : v hd = .ok false) :
    addLoop v (hd :: cs) repos =
      ⟨(addLoop v cs repos).repos, (addLoop v cs repos).added,
       (addLoop v cs repos).skipped, hd :: (addLoop v cs repos).failed⟩ := by
  conv_lhs => unfold addLoop
  rw [if_neg h, hv]

/-- Step equation of `addLoop` for an absent candidate whose validation
call raises: the candidate goes to `failed` with the error detail
attached, the working set is unchanged and the loop continues. -/
theorem addLoop_cons_error (v : String → Except String Bool) (hd : String)
    (cs repos : List String) (e : String) (h : hd ∉ repos) (hv : v hd = .error e) :
    addLoop v (hd :: cs) repos =
      ⟨(addLoop v cs repos).repos, (addLoop v cs repos).added,
       (addLoop v cs repos).skipped,
       (hd ++ " (error: " ++ e ++ ")") :: (addLoop v cs repos).failed⟩ := by
  conv_lhs => unfold addLoop
  rw [if_neg h, hv]

/-- The working set after the add loop is the input working set with the
`added` candidates appended, in order: nothing else is ever written. -/
theorem addLoop_repos_eq (v : String → Except String Bool) :
    ∀ (cs repos : List String),
      (addLoop v cs repos).repos = repos ++ (addLoop v cs repos).added := by
  intro cs
  induction cs with
  | nil => intro repos; simp [addLoop]
  | cons hd cs ih =>
    intro repos
    by_cases hmem : hd ∈ repos
    · rw [addLoop_cons_mem v hd cs repos hmem]
      exact ih repos
    · cases hv : v hd with
      | error e =>
        rw [addLoop_cons_error v hd cs repos e hmem hv]
        exact ih repos
      | ok b =>
        cases b
        · rw [addLoop_cons_false v hd cs repos hmem hv]
          exact ih repos
        · rw [addLoop_cons_true v hd cs repos hmem hv]
          simpa [List.append_assoc] using ih (repos ++ [hd])

/-- Every candidate the add loop puts into `added` was absent from the
input working set. -/
theorem addLoop_added_not_mem (v : String → Except String Bool) :
    ∀ (cs repos : List String), ∀ a ∈ (addLoop v cs repos).added, a ∉ repos := by
  intro cs
  induction cs with
  | nil => intro repos a ha; simp [addLoop] at ha
  | cons hd cs ih =>
    intro repos a ha
    by_cases hmem : hd ∈ repos
    · rw [addLoop_cons_mem v hd cs repos hmem] at ha
      exact ih repos a ha
    · cases hv : v hd with
      | error e =>
        rw [addLoop_cons_error v hd cs repos e hmem hv] at ha
        exact ih repos a ha
      | ok b =>
        cases b
        · rw [addLoop_cons_false v hd cs repos hmem hv] at ha
          exact ih repos a ha
        · rw [addLoop_cons_true v hd cs repos hmem hv] at ha
          rcases List.mem_cons.mp ha with rfl | ha
          · exact hmem
          · intro hx
            exact ih (repos ++ [hd]) a ha (by simp [hx])

/-- The add loop keeps the working set duplicate-free: a candidate is
appended only after the membership test failed. -/
theorem addLoop_nodup (v : String → Except String Bool) :
    ∀ (cs repos : List String), repos.Nodup → (addLoop v cs repos).repos.Nodup := by
  intro cs
  induction cs with
  | nil => intro repos h; simpa [addLoop] using h
  | cons hd cs ih =>
    intro repos h
    by_cases hmem : hd ∈ repos
    · rw [addLoop_cons_mem v hd cs repos hmem]
      exact ih repos h
    · cases hv : v hd with
      | error e =>
        rw [addLoop_cons_error v hd cs repos e hmem hv]
        exact ih repos h
      | ok b =>
        cases b
        · rw [addLoop_cons_false v hd cs repos hmem hv]
          exact ih repos h
        · rw [addLoop_cons_true v hd cs repos hmem hv]
          exact ih (repos ++ [hd]) (by simp [List.nodup_append, h, hmem])

/-- The per-candidate outcome of the add loop, for a duplicate-free
candidate batch: a candidate present in the working set is skipped and
never added; an absent one follows its validator verdict. -/
theorem addLoop_mem_spec (v : String → Except String Bool) :
    ∀ (cs repos : List String), cs.Nodup → ∀ c ∈ cs,
      (c ∈ repos → c ∈ (addLoop v cs repos).skipped) ∧
      (c ∉ repos →
        (v c = .ok true → c ∈ (addLoop v cs repos).added) ∧
        (v c = .ok false → c ∈ (addLoop v cs repos).failed) ∧
        (∀ e, v c = .error e →
          (c ++ " (error: " ++ e ++ ")") ∈ (addLoop v cs repos).failed)) := by
  intro cs
  induction cs with
  | nil => intro repos _ c hc; simp at hc
  | cons hd cs ih =>
    intro repos hnd c hc
    have hndtl : cs.Nodup := hnd.of_cons
    have hhdtl : hd ∉ cs := (List.nodup_cons.mp hnd).1
    rcases List.mem_cons.mp hc with rfl | htl
    · by_cases hmem : c ∈ repos
      · rw [addLoop_cons_mem v c cs repos hmem]
        exact ⟨fun _ => by simp, fun hn => absurd hmem hn⟩
      · refine ⟨fun h => absurd h hmem, fun _ => ⟨fun hv => ?_, fun hv => ?_, fun e hv => ?_⟩⟩
        · rw [addLoop_cons_true v c cs repos hmem hv]; simp
        · rw [addLoop_cons_false v c cs repos hmem hv]; simp
        · rw [addLoop_cons_error v c cs repos e hmem hv]; simp
    · have hne : c ≠ hd := fun h => hhdtl (h ▸ htl)
      by_cases hmem : hd ∈ repos
      · rw [addLoop_cons_mem v hd cs repos hmem]
        have r := ih repos hndtl c htl
        exact ⟨fun h => List.mem_cons_of_mem hd (r.1 h), fun h => r.2 h⟩
      · cases hv : v hd with
        | error e =>
          rw [addLoop_cons_error v hd cs repos e hmem hv]
          have r := ih repos hndtl c htl
          exact ⟨fun h => r.1 h, fun h =>
            ⟨fun hvc => (r.2 h).1 hvc,
             fun hvc => List.mem_cons_of_mem _ ((r.2 h).2.1 hvc),
             fun e2 hvc => List.mem_cons_of_mem _ ((r.2 h).2.2 e2 hvc)⟩⟩
        | ok b =>
          cases b
          · rw [addLoop_cons_false v hd cs repos hmem hv]
            have r := ih repos hndtl c htl
            exact ⟨fun h => r.1 h, fun h =>
              ⟨fun hvc => (r.2 h).1 hvc,
               fun hvc => List.mem_cons_of_mem _ ((r.2 h).2.1 hvc),
               fun e2 hvc => List.mem_cons_of_mem _ ((r.2 h).2.2 e2 hvc)⟩⟩
          · rw [addLoop_cons_true v hd cs repos hmem hv]
            have r := ih (repos ++ [hd]) hndtl c htl
            have hiff : c ∈ repos ++ [hd] ↔ c ∈ repos := by
              simp [List.mem_append, hne]
            refine ⟨fun h => r.1 (hiff.mpr h), fun h => ?_⟩
            have h2 : c ∉ repos ++ [hd] := fun hx => h (hiff.mp hx)
            exact ⟨fun hvc => List.mem_cons_of_mem _ ((r.2 h2).1 hvc),
                   fun hvc => (r.2 h2).2.1 hvc,
                   fun e2 hvc => (r.2 h2).2.2 e2 hvc⟩

/-- Every candidate of a batch lands in one of the three outcome
buckets (with the error detail attached when its validation call
errored): no candidate is dropped and none aborts the loop. -/
theorem addLoop_cover (v : String → Except String Bool) :
    ∀ (cs repos : List String), ∀ c ∈ cs,
      c ∈ (addLoop v cs repos).added ∨
      c ∈ (addLoop v cs repos).skipped ∨
      c ∈ (addLoop v cs repos).failed ∨
      ∃ e, v c = .error e ∧
        (c ++ " (error: " ++ e ++ ")") ∈ (addLoop v cs repos).failed := by
  intro cs
  induction cs with
  | nil => intro repos c hc; simp at hc
  | cons hd cs ih =>
    intro repos c hc
    rcases List.mem_cons.mp hc with rfl | htl
    · by_cases hmem : c ∈ repos
      · rw [addLoop_cons_mem v c cs repos hmem]
        right; left; simp
      · cases hv : v c with
        | error e =>
          rw [addLoop_cons_error v c cs repos e hmem hv]
          right; right; right; exact ⟨e, rfl, by simp⟩
        | ok b =>
          cases b
          · rw [addLoop_cons_false v c cs repos hmem hv]
            right; right; left; simp
          · rw [addLoop_cons_true v c cs repos hmem hv]
            left; simp
    · by_cases hmem : hd ∈ repos
      · rw [addLoop_cons_mem v hd cs repos hmem]
        rcases ih repos c htl with h | h | h | ⟨e, he, h⟩
        · exact Or.inl h
        · exact Or.inr (Or.inl (List.mem_cons_of_mem hd h))
        · exact Or.inr (Or.inr (Or.inl h))
        · exact Or.inr (Or.inr (Or.inr ⟨e, he, h⟩))
      · cases hv : v hd with
        | error e2 =>
          rw [addLoop_cons_error v hd cs repos e2 hmem hv]
          rcases ih repos c htl with h | h | h | ⟨e, he, h⟩
          · exact Or.inl h
          · exact Or.inr (Or.inl h)
          · exact Or.inr (Or.inr (Or.inl (List.mem_cons_of_mem _ h)))
          · exact Or.inr (Or.inr (Or.inr ⟨e, he, List.mem_cons_of_mem _ h⟩))
        | ok b =>
          cases b
          · rw [addLoop_cons_false v hd cs repos hmem hv]
            rcases ih repos c htl with h | h | h | ⟨e, he, h⟩
            · exact Or.inl h
            · exact Or.inr (Or.inl h)
            · exact Or.inr (Or.inr (Or.inl (List.mem_cons_of_mem _ h)))
            · exact Or.inr (Or.inr (Or.inr ⟨e, he, List.mem_cons_of_mem _ h⟩))
          · rw [addLoop_cons_true v hd cs repos hmem hv]
            rcases ih (repos ++ [hd]) c htl with h | h | h | ⟨e, he, h⟩
            · exact Or.inl (List.mem_cons_of_mem _ h)
            · exact Or.inr (Or.inl h)
            · exact Or.inr (Or.inr (Or.inl h))
            · exact Or.inr (Or.inr (Or.inr ⟨e, he, h⟩))

/-! ## C1: the add path -/

/-- C1: in one add batch over the just-read registry, an already-tracked
candidate is reported `already_tracked` (skipped) and never appended
again; an absent candidate validated as existing is appended and
reported `added`; an absent candidate whose validation denies or errors
is reported `failed`; a write of the extended working set is issued
exactly when at least one `added` outcome occurred, otherwise the
stored registry is untouched; and the stored registry never gains a
duplicate entry. -/
theorem c1_add_path (v : String → Except String Bool) (registry : List String)
    (text : String) (hreg : registry.Nodup) (hne : extractList text ≠ [])
    (hcap : (extractList text).length ≤ 20) :
    AddPathSpec v registry text := by
  have hnd : (extractList text).Nodup := List.nodup_dedup _
  have hempty : (extractList text).isEmpty = false := by
    cases h : extractList text with
    | nil => exact absurd h hne
    | cons a l => simp
  have hlt : ¬ 20 < (extractList text).length := by omega
  have hrepos := addLoop_repos_eq v (extractList text) registry
  refine ⟨?_, ?_, ?_⟩
  · unfold process_repo_addition
    simp only [hempty, Bool.false_eq_true, if_false, hlt]
    cases hA : (addLoop v (extractList text) registry).added with
    | nil => simp [hA]
    | cons a l => simp [hA, hrepos, hA ▸ hrepos]
  · intro c hc
    have spec := addLoop_mem_spec v (extractList text) registry hnd c hc
    exact ⟨fun h => ⟨spec.1 h,
      fun ha => addLoop_added_not_mem v (extractList text) registry c ha h⟩,
      fun h => spec.2 h⟩
  · unfold process_repo_addition
    simp only [hempty, Bool.false_eq_true, if_false, hlt]
    split
    · exact hreg
    · exact addLoop_nodup v (extractList text) registry hreg

/-- C1 witness: registry `["c/d"]`, batch `a/b c/d e/f`, a validator
confirming `a/b` and denying `e/f`: `a/b` is added, `c/d` skipped,
`e/f` failed. -/
theorem c1_add_path_witness :
    AddPathSpec (fun s => if s = "a/b" then .ok true else .ok false)
      ["c/d"] "a/b c/d e/f" :=
  c1_add_path (fun s => if s = "a/b" then .ok true else .ok false)
    ["c/d"] "a/b c/d e/f" (by decide) (by decide) (by decide)

/-! ## C5: per-item failure containment -/

/-- C5: an exception in one candidate's validation call is caught at the
call site: the candidate is classified `failed` with the error detail
attached, the loop continues, every candidate of the batch ends up in
one of the three outcome buckets, and the batch still produces a
per-item report. -/
theorem c5_failure_containment (v : String → Except String Bool)
    (registry : List String) (text : String) (hne : extractList text ≠ [])
    (hcap : (extractList text).length ≤ 20) :
    AddErrorSpec v registry text := by
  have hnd : (extractList text).Nodup := List.nodup_dedup _
  have hempty : (extractList text).isEmpty = false := by
    cases h : extractList text with
    | nil => exact absurd h hne
    | cons a l => simp
  have hlt : ¬ 20 < (extractList text).length := by omega
  refine ⟨?_, ?_, ?_⟩
  · unfold process_repo_addition
    simp only [hempty, Bool.false_eq_true, if_false, hlt]
    cases hA : (addLoop v (extractList text) registry).added with
    | nil => simp [hA]
    | cons a l => simp [hA]
  · intro c hc hmem e hv
    exact ((addLoop_mem_spec v (extractList text) registry hnd c hc).2 hmem).2.2 e hv
  · intro c hc
    exact addLoop_cover v (extractList text) registry c hc

/-- C5 witness: a validator that raises on `x/y` and confirms `a/b`:
the batch continues past the error, `x/y (error: boom)` lands in
`failed` and `a/b` is still added. -/
theorem c5_failure_containment_witness :
    AddErrorSpec
      (fun s => if s = "x/y" then .error "boom" else .ok true) [] "x/y a/b" :=
  c5_failure_containment (fun s => if s = "x/y" then .error "boom" else .ok true)
    [] "x/y a/b" (by decide) (by decide)

/-! ## The remove loop -/

/-- Step equation of `removeLoop` for a tracked candidate: its first
occurrence is removed from the working set (`list.remove`) and it is
recorded in `actually_removed`. -/
theorem removeLoop_cons_mem (hd : String) (cs repos : List String) (h : hd ∈ repos) :
    removeLoop (hd :: cs) repos =
      ⟨(removeLoop cs (repos.erase hd)).repos,
       hd :: (removeLoop cs (repos.erase hd)).removed,
       (removeLoop cs (repos.erase hd)).notTracked⟩ := by
  conv_lhs => unfold removeLoop
  rw [if_pos h]

/-- Step equation of `removeLoop` for an untracked candidate: it is
recorded in `not_found`, the working set is unchanged. -/
theorem removeLoop_cons_not_mem (hd : String) (cs repos : List String) (h : hd ∉ repos) :
    removeLoop (hd :: cs) repos =
      ⟨(removeLoop cs repos).repos, (removeLoop cs repos).removed,
       hd :: (removeLoop cs repos).notTracked⟩ := by
  conv_lhs => unfold removeLoop
  rw [if_neg h]

/-- If the remove loop removed nothing, the working set is exactly the
input registry. -/
theorem removeLoop_removed_nil :
    ∀ (cs repos : List String), (removeLoop cs repos).removed = [] →
      (removeLoop cs repos).repos = repos := by
  intro cs
  induction cs with
  | nil => intro repos _; simp [removeLoop]
  | cons hd cs ih =>
    intro repos h
    by_cases hmem : hd ∈ repos
    · rw [removeLoop_cons_mem hd cs repos hmem] at h
      simp at h
    · rw [removeLoop_cons_not_mem hd cs repos hmem] at h ⊢
      exact ih repos h

/-- The working set after the remove loop is a sublist of the input:
the loop only deletes. -/
theorem removeLoop_sublist :
    ∀ (cs repos : List String), List.Sublist (removeLoop cs repos).repos repos := by
  intro cs
  induction cs with
  | nil => intro repos; simp [removeLoop]
  | cons hd cs ih =>
    intro repos
    by_cases hmem : hd ∈ repos
    · rw [removeLoop_cons_mem hd cs repos hmem]
      exact (ih (repos.erase hd)).trans (List.erase_sublist hd repos)
    · rw [removeLoop_cons_not_mem hd cs repos hmem]
      exact ih repos

/-- The per-candidate outcome of the remove loop, for duplicate-free
candidate batch and registry: a tracked candidate is recorded as
removed and is gone from the resulting working set; an untracked one is
recorded as not tracked. -/
theorem removeLoop_mem_spec :
    ∀ (cs repos : List String), cs.Nodup → repos.Nodup → ∀ c ∈ cs,
      (c ∈ repos → c ∈ (removeLoop cs repos).removed ∧
        c ∉ (removeLoop cs repos).repos) ∧
      (c ∉ repos → c ∈ (removeLoop cs repos).notTracked) := by
  intro cs
  induction cs with
  | nil => intro repos _ _ c hc; simp at hc
  | cons hd cs ih =>
    intro repos hnd hrepos c hc
    have hndtl : cs.Nodup := hnd.of_cons
    have hhdtl : hd ∉ cs := (List.nodup_cons.mp hnd).1
    rcases List.mem_cons.mp hc with rfl | htl
    · by_cases hmem : c ∈ repos
      · rw [removeLoop_cons_mem c cs repos hmem]
        refine ⟨fun _ => ⟨by simp, fun hfin => ?_⟩, fun hn => absurd hmem hn⟩
        have hsub : c ∈ repos.erase c :=
          (removeLoop_sublist cs (repos.erase c)).mem hfin
        rw [hrepos.mem_erase_iff] at hsub
        exact hsub.1 rfl
      · rw [removeLoop_cons_not_mem c cs repos hmem]
        exact ⟨fun h => absurd h hmem, fun _ => by simp⟩
    · have hne : c ≠ hd := fun h => hhdtl (h ▸ htl)
      by_cases hmem : hd ∈ repos
      · rw [removeLoop_cons_mem hd cs repos hmem]
        have r := ih (repos.erase hd) hndtl (hrepos.erase hd) c htl
        have hiff : c ∈ repos.erase hd ↔ c ∈ repos := List.mem_erase_of_ne hne
        exact ⟨fun h => ⟨List.mem_cons_of_mem hd (r.1 (hiff.mpr h)).1,
            (r.1 (hiff.mpr h)).2⟩,
          fun h => r.2 (fun hx => h (hiff.mp hx))⟩
      · rw [removeLoop_cons_not_mem hd cs repos hmem]
        have r := ih repos hndtl hrepos c htl
        exact ⟨fun h => r.1 h, fun h => List.mem_cons_of_mem hd (r.2 h)⟩

/-! ## C2: the remove path -/

/-- C2: in one remove batch over the just-read registry, a tracked
candidate is removed from the working set and reported `removed`, an
untracked one is reported `not_tracked` with no change; a write is
issued exactly when at least one `removed` outcome occurred, so a batch
of only untracked candidates leaves the registry exactly as read and
performs no write. -/
theorem c2_remove_path (registry : List String) (text : String)
    (hreg : registry.Nodup) (hne : extractList text ≠ []) :
    RemovePathSpec registry text := by
  have hnd : (extractList text).Nodup := List.nodup_dedup _
  have hempty : (extractList text).isEmpty = false := by
    cases h : extractList text with
    | nil => exact absurd h hne
    | cons a l => simp
  refine ⟨?_, ?_, ?_⟩
  · unfold remove_cmd
    simp only [hempty, Bool.false_eq_true, if_false]
    cases hA : (removeLoop (extractList text) registry).removed with
    | nil => simp [hA]
    | cons a l => simp [hA]
  · intro c hc
    exact removeLoop_mem_spec (extractList text) registry hnd hreg c hc
  · intro hA
    unfold remove_cmd
    simp only [hempty, Bool.false_eq_true, if_false]
    simp [hA]

/-- C2 witness: registry `["a/b", "c/d"]`, batch `a/b x/y`: `a/b` is
removed, `x/y` reported not tracked; and a batch of only untracked
candidates writes nothing. -/
theorem c2_remove_path_witness :
    RemovePathSpec ["a/b", "c/d"] "a/b x/y" :=
  c2_remove_path ["a/b", "c/d"] "a/b x/y" (by decide) (by decide)

/-! ## The scanner -/

/-- A run of characters satisfying `p` followed by input whose head does
not satisfy `p` splits exactly at the boundary under `takeWhile` /
`dropWhile`. -/
theorem takeWhile_append_run (p : Char → Bool) :
    ∀ (o rest : List Char), (∀ c ∈ o, p c = true) →
      (∀ c, rest.head? = some c → p c = false) →
      (o ++ rest).takeWhile p = o ∧ (o ++ rest).dropWhile p = rest := by
  intro o
  induction o with
  | nil =>
    intro rest _ hr
    cases rest with
    | nil => simp
    | cons r t =>
      have hrf : p r = false := hr r rfl
      simp [List.takeWhile_cons, List.dropWhile_cons, hrf]
  | cons a o ih =>
    intro rest ho hr
    have ha : p a = true := ho a (by simp)
    have htl := ih rest (fun c hc => ho c (by simp [hc])) hr
    simp [List.takeWhile_cons, List.dropWhile_cons, ha, htl.1, htl.2]

/-- `matchRest` on a canonical run: owner run, slash, name run, then
input not starting with a word character — the two greedy groups take
exactly the two runs. -/
theorem matchRest_run (o n rest : List Char) (ho : o ≠ []) (hn : n ≠ [])
    (how : ∀ c ∈ o, isWordChar c = true) (hnw : ∀ c ∈ n, isWordChar c = true)
    (hr : ∀ c, rest.head? = some c → isWordChar c = false) :
    matchRest (o ++ '/' :: (n ++ rest)) = some (String.mk o, String.mk n, rest) := by
  have hslash : ∀ c, ('/' :: (n ++ rest)).head? = some c → isWordChar c = false := by
    intro c hc
    simp only [List.head?_cons, Option.some.injEq] at hc
    subst hc
    decide
  have h1 := takeWhile_append_run isWordChar o ('/' :: (n ++ rest)) how hslash
  have h2 := takeWhile_append_run isWordChar n rest hnw hr
  unfold matchRest
  simp only [h1.1, h1.2, h2.1, h2.2]
  simp [List.isEmpty_iff, ho, hn]

/-- `matchRest` fails on input whose head is not a word character: the
first group needs at least one. -/
theorem matchRest_none_head (c : Char) (cs : List Char)
    (h : isWordChar c = false) : matchRest (c :: cs) = none := by
  unfold matchRest
  simp [List.takeWhile_cons, h]

/-- `matchRest` fails on input consisting only of word characters: the
required slash never appears. -/
theorem matchRest_none_all (cs : List Char)
    (h : ∀ c ∈ cs, isWordChar c = true) : matchRest cs = none := by
  simp only [matchRest, List.dropWhile_eq_nil_iff.mpr h]
  by_cases he : (cs.takeWhile isWordChar).isEmpty
  · simp [he]
  · simp [he]

/-- A successful URL-head consumption shows a colon in the input: both
literal heads contain one. -/
theorem colon_mem_of_urlHead (cs cs2 : List Char)
    (h : tryUrlHead cs = some cs2) : (':' : Char) ∈ cs := by
  unfold tryUrlHead at h
  split at h
  · next hp =>
    exact (List.isPrefixOf_iff_prefix.mp hp).subset (by decide)
  · split at h
    · next hp =>
      exact (List.isPrefixOf_iff_prefix.mp hp).subset (by decide)
    · exact absurd h (by simp)

/-- Without a colon in the input the optional URL head cannot match, so
a match attempt is just `matchRest`. -/
theorem matchAt_no_colon (cs : List Char) (h : (':' : Char) ∉ cs) :
    matchAt cs = matchRest cs := by
  unfold matchAt
  cases htry : tryUrlHead cs with
  | none => rfl
  | some cs2 => exact absurd (colon_mem_of_urlHead cs cs2 htry) h

/-- A successful `matchRest` consumes at least the first run and the
slash: the remaining input is strictly shorter. -/
theorem matchRest_length (cs : List Char) (o n : String) (rest : List Char)
    (h : matchRest cs = some (o, n, rest)) : rest.length < cs.length := by
  simp only [matchRest] at h
  by_cases he : (cs.takeWhile isWordChar).isEmpty
  · simp [he] at h
  · simp only [he, Bool.false_eq_true, if_false] at h
    cases hdw : cs.dropWhile isWordChar with
    | nil => rw [hdw] at h; simp at h
    | cons d cs2 =>
      rw [hdw] at h
      by_cases hd : d = '/'
      · simp only [hd, if_pos rfl] at h
        by_cases hne : (cs2.takeWhile isWordChar).isEmpty
        · simp [hne] at h
        · simp only [hne, Bool.false_eq_true, if_false, if_true, Option.some.injEq,
            Prod.mk.injEq] at h
          have hsplit := congrArg List.length
            (List.takeWhile_append_dropWhile (p := isWordChar) (l := cs))
          rw [hdw] at hsplit
          simp only [List.length_append, List.length_cons] at hsplit
          have htw : 0 < (cs.takeWhile isWordChar).length := by
            cases htw2 : cs.takeWhile isWordChar with
            | nil => rw [htw2] at he; simp at he
            | cons a t => simp
          have hrest : rest.length ≤ cs2.length := by
            rw [← h.2.2]
            exact (List.dropWhile_sublist (l := cs2) isWordChar).length_le
          omega
      · simp [hd] at h

/-- A successful match attempt leaves a strictly shorter remaining
input, with or without URL head. -/
theorem matchAt_length (cs : List Char) (o n : String) (rest : List Char)
    (h : matchAt cs = some (o, n, rest)) : rest.length < cs.length := by
  unfold matchAt at h
  cases htry : tryUrlHead cs with
  | none =>
    rw [htry] at h
    exact matchRest_length cs o n rest h
  | some cs2 =>
    rw [htry] at h
    simp only [] at h
    have hlen2 : cs2.length ≤ cs.length := by
      unfold tryUrlHead at htry
      split at htry
      · injection htry with h2
        subst h2
        simp [List.length_drop]
      · split at htry
        · injection htry with h2
          subst h2
          simp [List.length_drop]
        · exact absurd htry (by simp)
    cases hmr : matchRest cs2 with
    | none =>
      rw [hmr] at h
      exact matchRest_length cs o n rest h
    | some r =>
      rw [hmr] at h
      injection h with h2
      subst h2
      exact lt_of_lt_of_le (matchRest_length cs2 o n rest hmr) hlen2

/-- The scan of the empty input is empty at any fuel. -/
theorem findallAux_nil (fuel : Nat) : findallAux fuel [] = [] := by
  cases fuel <;> rfl

/-- The fuelled scan does not depend on the fuel once it covers the
input length: every step consumes at least one character. -/
theorem findallAux_congr :
    ∀ (fuel1 fuel2 : Nat) (cs : List Char), cs.length ≤ fuel1 →
      cs.length ≤ fuel2 → findallAux fuel1 cs = findallAux fuel2 cs := by
  intro fuel1
  induction fuel1 with
  | zero =>
    intro fuel2 cs h1 _
    have : cs = [] := List.length_eq_zero.mp (Nat.le_zero.mp h1)
    subst this
    rw [findallAux_nil, findallAux_nil]
  | succ f ih =>
    intro fuel2 cs h1 h2
    cases cs with
    | nil => rw [findallAux_nil, findallAux_nil]
    | cons c cs =>
      cases fuel2 with
      | zero => simp at h2
      | succ g =>
        simp only [List.length_cons] at h1 h2
        show findallAux (f + 1) (c :: cs) = findallAux (g + 1) (c :: cs)
        unfold findallAux
        cases hm : matchAt (c :: cs) with
        | none => exact ih g cs (by omega) (by omega)
        | some p =>
          obtain ⟨o, n, rest⟩ := p
          have hlt : rest.length < cs.length + 1 := by
            simpa using matchAt_length (c :: cs) o n rest hm
          simp only []
          rw [ih g rest (by omega) (by omega)]

/-- The step equation of the scan: a match is recorded and the scan
resumes after it, otherwise the scan advances one character. -/
theorem findall_cons (c : Char) (cs : List Char) :
    findall (c :: cs) =
      match matchAt (c :: cs) with
      | some (o, n, rest) => (o, n) :: findall rest
      | none => findall cs := by
  show findallAux (cs.length + 1) (c :: cs) = _
  unfold findallAux
  cases hm : matchAt (c :: cs) with
  | none => rfl
  | some p =>
    obtain ⟨o, n, rest⟩ := p
    have hlt : rest.length < cs.length + 1 := by
      simpa using matchAt_length (c :: cs) o n rest hm
    simp only []
    rw [findallAux_congr cs.length rest.length rest (by omega) (by omega)]
    rfl

/-- The scan finds nothing in input consisting only of word characters:
the pattern's slash never appears. -/
theorem findall_all_word :
    ∀ (cs : List Char), (∀ c ∈ cs, isWordChar c = true) → findall cs = [] := by
  intro cs
  induction cs with
  | nil => intro _; rfl
  | cons c cs ih =>
    intro h
    have hcolon : (':' : Char) ∉ c :: cs := by
      intro hc
      have := h ':' hc
      simp [isWordChar] at this
    rw [findall_cons, matchAt_no_colon (c :: cs) hcolon,
      matchRest_none_all (c :: cs) h]
    exact ih (fun c2 hc2 => h c2 (List.mem_cons_of_mem c hc2))

/-! ## Canonical tokens and the scan of a token list -/

theorem string_data_append (a b : String) : (a ++ b).data = a.data ++ b.data := rfl

theorem string_eq_of_data {a b : String} (h : a.data = b.data) : a = b := by
  cases a
  cases b
  exact congrArg String.mk h

theorem joinSpace_single (s : String) : joinSpace [s] = s := rfl

theorem joinSpace_cons2 (s s2 : String) (rest : List String) :
    joinSpace (s :: s2 :: rest) = s ++ " " ++ joinSpace (s2 :: rest) := rfl

/-- A canonical identifier splits as a non-empty word run, a slash, and
a second non-empty word run. -/
theorem canonical_decomp (s : String) (h : isCanonicalId s = true) :
    ∃ o n : List Char, s.data = o ++ '/' :: n ∧ o ≠ [] ∧ n ≠ [] ∧
      (∀ c ∈ o, isWordChar c = true) ∧ (∀ c ∈ n, isWordChar c = true) := by
  unfold isCanonicalId at h
  cases hdw : s.data.dropWhile isWordChar with
  | nil => rw [hdw] at h; simp at h
  | cons d n =>
    rw [hdw] at h
    simp only [Bool.and_eq_true, beq_iff_eq, Bool.not_eq_true', List.all_eq_true] at h
    refine ⟨s.data.takeWhile isWordChar, n, ?_, ?_, ?_, ?_, ?_⟩
    · rw [← h.1.1.1]
      rw [← hdw]
      exact (List.takeWhile_append_dropWhile (p := isWordChar) (l := s.data)).symm
    · intro hemp
      rw [hemp] at h
      simp at h
    · intro hemp
      rw [hemp] at h
      simp at h
    · intro c hc
      exact List.mem_takeWhile_imp hc
    · intro c hc
      exact h.2 c hc

/-- Every character of a space-joined list of canonical tokens is a word
character, a slash, or a space. -/
theorem joinSpace_chars :
    ∀ (l : List String), (∀ s ∈ l, isCanonicalId s = true) →
      ∀ c ∈ (joinSpace l).data, isWordChar c = true ∨ c = '/' ∨ c = ' ' := by
  intro l
  induction l with
  | nil =>
    intro _ c hc
    simp [joinSpace] at hc
  | cons s rest ih =>
    intro hall c hc
    have hs : ∀ c2 ∈ s.data, isWordChar c2 = true ∨ c2 = '/' := by
      obtain ⟨o, n, hdata, _, _, how, hnw⟩ := canonical_decomp s (hall s (by simp))
      intro c2 hc2
      rw [hdata] at hc2
      rcases List.mem_append.mp hc2 with h2 | h2
      · exact Or.inl (how c2 h2)
      · rcases List.mem_cons.mp h2 with rfl | h2
        · exact Or.inr rfl
        · exact Or.inl (hnw c2 h2)
    cases rest with
    | nil =>
      rw [joinSpace_single] at hc
      rcases hs c hc with h | h
      · exact Or.inl h
      · exact Or.inr (Or.inl h)
    | cons s2 rest2 =>
      rw [joinSpace_cons2] at hc
      rw [string_data_append, string_data_append] at hc
      rcases List.mem_append.mp hc with h2 | h2
      · rcases List.mem_append.mp h2 with h3 | h3
        · rcases hs c h3 with h | h
          · exact Or.inl h
          · exact Or.inr (Or.inl h)
        · rcases List.mem_singleton.mp h3 with rfl
          exact Or.inr (Or.inr rfl)
      · exact ih (fun s3 hs3 => hall s3 (List.mem_cons_of_mem s hs3)) c h2

/-- The scan of a space-joined list of canonical tokens returns exactly
those tokens, in order. -/
theorem findall_join :
    ∀ (l : List String), (∀ s ∈ l, isCanonicalId s = true) →
      (findall (joinSpace l).data).map (fun p => p.1 ++ "/" ++ p.2) = l := by
  intro l
  induction l with
  | nil => intro _; rfl
  | cons s rest ih =>
    intro hall
    have hcolon : (':' : Char) ∉ (joinSpace (s :: rest)).data := by
      intro hc
      rcases joinSpace_chars (s :: rest) hall ':' hc with h | h | h
      · exact absurd h (by decide)
      · exact absurd h (by decide)
      · exact absurd h (by decide)
    obtain ⟨o, n, hdata, ho, hn, how, hnw⟩ := canonical_decomp s (hall s (by simp))
    cases o with
    | nil => exact absurd rfl ho
    | cons oh ot =>
    have hsval : ∀ tail : List Char,
        String.mk (oh :: ot) ++ "/" ++ String.mk n = s := by
      intro _
      apply string_eq_of_data
      rw [string_data_append, string_data_append, hdata]
      simp
    cases rest with
    | nil =>
      have hmatch : matchRest ((oh :: ot) ++ '/' :: (n ++ [])) =
          some (String.mk (oh :: ot), String.mk n, []) :=
        matchRest_run (oh :: ot) n [] ho hn how hnw (by intro c hc; simp at hc)
      rw [List.append_nil] at hmatch
      have hmatch2 : matchRest (oh :: (ot ++ '/' :: n)) =
          some (String.mk (oh :: ot), String.mk n, []) := hmatch
      have hdata2 : (joinSpace [s]).data = oh :: (ot ++ '/' :: n) := by
        rw [joinSpace_single, hdata]
        rfl
      rw [hdata2]
      have hcolon2 : (':' : Char) ∉ oh :: (ot ++ '/' :: n) := hdata2 ▸ hcolon
      rw [findall_cons, matchAt_no_colon _ hcolon2, hmatch2]
      simp only [List.map_cons]
      rw [hsval []]
      rfl
    | cons s2 rest2 =>
      have htail := (joinSpace (s2 :: rest2)).data
      have hmatch : matchRest ((oh :: ot) ++ '/' ::
          (n ++ ' ' :: (joinSpace (s2 :: rest2)).data)) =
          some (String.mk (oh :: ot), String.mk n,
            ' ' :: (joinSpace (s2 :: rest2)).data) :=
        matchRest_run (oh :: ot) n (' ' :: (joinSpace (s2 :: rest2)).data) ho hn how hnw
          (by
            intro c hc
            simp only [List.head?_cons, Option.some.injEq] at hc
            subst hc
            decide)
      have hmatch2 : matchRest (oh :: (ot ++ '/' ::
          (n ++ ' ' :: (joinSpace (s2 :: rest2)).data))) =
          some (String.mk (oh :: ot), String.mk n,
            ' ' :: (joinSpace (s2 :: rest2)).data) := hmatch
      have hdata2 : (joinSpace (s :: s2 :: rest2)).data =
          oh :: (ot ++ '/' :: (n ++ ' ' :: (joinSpace (s2 :: rest2)).data)) := by
        rw [joinSpace_cons2, string_data_append, string_data_append, hdata]
        simp
      rw [hdata2]
      have hcolon2 : (':' : Char) ∉
          oh :: (ot ++ '/' :: (n ++ ' ' :: (joinSpace (s2 :: rest2)).data)) :=
        hdata2 ▸ hcolon
      rw [findall_cons, matchAt_no_colon _ hcolon2, hmatch2]
      have htl : ∀ s3 ∈ s2 :: rest2, isCanonicalId s3 = true :=
        fun s3 hs3 => hall s3 (List.mem_cons_of_mem s hs3)
      have hcolontl : (':' : Char) ∉ ' ' :: (joinSpace (s2 :: rest2)).data := by
        intro hc
        rcases List.mem_cons.mp hc with h | h
        · exact absurd h (by decide)
        · rcases joinSpace_chars (s2 :: rest2) htl ':' h with h2 | h2 | h2
          · exact absurd h2 (by decide)
          · exact absurd h2 (by decide)
          · exact absurd h2 (by decide)
      have hskip : findall (' ' :: (joinSpace (s2 :: rest2)).data) =
          findall (joinSpace (s2 :: rest2)).data := by
        rw [findall_cons, matchAt_no_colon _ hcolontl, matchRest_none_head ' ' _ (by decide)]
      simp only [List.map_cons]
      rw [hsval [], hskip, ih htl]

/-- A text of word characters, slashes, and spaces passes the separator
substitutions unchanged. -/
theorem normalizeText_id (s : String)
    (h : ∀ c ∈ s.data, c ≠ ',' ∧ c ≠ '\n') : normalizeText s = s.data := by
  unfold normalizeText
  rw [List.map_map]
  conv_rhs => rw [← List.map_id s.data]
  apply List.map_eq_map_iff.mpr
  intro c hc
  obtain ⟨h1, h2⟩ := h c hc
  simp [Function.comp, h1, h2]

/-- Extraction from a space-joined list of canonical tokens returns
exactly that set of tokens. -/
theorem extract_join (l : List String) (hall : ∀ s ∈ l, isCanonicalId s = true) :
    extract_repos_from_text (joinSpace l) = l.toFinset := by
  unfold extract_repos_from_text extractList
  rw [normalizeText_id (joinSpace l) (by
    intro c hc
    rcases joinSpace_chars l hall c hc with h | h | h
    · constructor <;> intro h2 <;> rw [h2] at h <;> exact absurd h (by decide)
    · subst h; exact ⟨by decide, by decide⟩
    · subst h; exact ⟨by decide, by decide⟩)]
  rw [findall_join l hall]
  ext a
  simp [List.mem_dedup]

/-! ## C8: extraction canonicalization -/

/-- C8: extraction is unchanged by replacing commas and newlines with
spaces (so the comma/newline-separated and space-separated forms of
`a/b c/d e/f` give the same set); duplicate occurrences and
`https://github.com/`-prefixed forms of the same pair collapse; and
extracting from a space-joined list of already-canonical tokens returns
exactly that set. -/
theorem c8_extraction (t : String) (l : List String) :
    extract_repos_from_text (replaceSeparators t) = extract_repos_from_text t ∧
    (extract_repos_from_text "a/b, c/d\ne/f" = extract_repos_from_text "a/b c/d e/f" ∧
      extract_repos_from_text "a/b c/d e/f" = {"a/b", "c/d", "e/f"}) ∧
    extract_repos_from_text "a/b a/b https://github.com/a/b" = {"a/b"} ∧
    ((∀ s ∈ l, isCanonicalId s = true) →
      extract_repos_from_text (joinSpace l) = l.toFinset) := by
  refine ⟨?_, ⟨by decide, by decide⟩, by decide, fun h => extract_join l h⟩
  have hnorm : normalizeText (replaceSeparators t) = normalizeText t := by
    unfold normalizeText replaceSeparators
    show ((t.data.map _).map _).map _ = _
    rw [List.map_map, List.map_map, List.map_map]
    apply List.map_eq_map_iff.mpr
    intro c _
    by_cases hc : c = ','
    · simp [Function.comp, hc]
    · by_cases hn : c = '\n'
      · simp [Function.comp, hn]
      · simp [Function.comp, hc, hn]
  unfold extract_repos_from_text extractList
  rw [hnorm]

/-- C8 witness: the canonical-token conjunct applied to the concrete
token list `["a/b", "c/d"]`. -/
theorem c8_extraction_witness :
    (∀ s ∈ ["a/b", "c/d"], isCanonicalId s = true) ∧
    extract_repos_from_text (joinSpace ["a/b", "c/d"]) =
      (["a/b", "c/d"] : List String).toFinset :=
  ⟨by decide, (c8_extraction "x" ["a/b", "c/d"]).2.2.2 (by decide)⟩

/-! ## C10: scheme-less `github.com/x/y` input -/

/-- C10: on a token `github.com/x/y` written without a scheme the
optional URL prefix of the pattern cannot match (it requires
`http://` or `https://`), so the first capture group greedily consumes
the domain: the extracted set is exactly `{github.com/x}`, and in
particular the intended identifier `x/y` is not returned (whenever it
differs from `github.com/x`, which for word-character segments fails
only in the degenerate case `x = y = "github.com"`). -/
theorem c10_schemeless (x y : String) (hx : x.data ≠ []) (hy : y.data ≠ [])
    (hxw : ∀ c ∈ x.data, isWordChar c = true)
    (hyw : ∀ c ∈ y.data, isWordChar c = true)
    (hne : x ++ "/" ++ y ≠ "github.com/" ++ x) :
    extract_repos_from_text ("github.com/" ++ x ++ "/" ++ y) = {"github.com/" ++ x} ∧
    (x ++ "/" ++ y) ∉ extract_repos_from_text ("github.com/" ++ x ++ "/" ++ y) := by
  have hG : ∀ c ∈ "github.com".data, isWordChar c = true := by decide
  have hdata : ("github.com/" ++ x ++ "/" ++ y).data =
      'g' :: ("ithub.com".data ++ '/' :: (x.data ++ '/' :: y.data)) := by
    rw [string_data_append, string_data_append, string_data_append]
    simp
  have hchars : ∀ c ∈ ("github.com/" ++ x ++ "/" ++ y).data,
      isWordChar c = true ∨ c = '/' := by
    intro c hc
    rw [hdata] at hc
    rcases List.mem_cons.mp hc with rfl | hc
    · exact Or.inl (by decide)
    · rcases List.mem_append.mp hc with hc | hc
      · exact Or.inl (by
          have : c ∈ "github.com".data := by
            simp only [show "github.com".data = 'g' :: "ithub.com".data from rfl]
            exact List.mem_cons_of_mem 'g' hc
          exact hG c this)
      · rcases List.mem_cons.mp hc with rfl | hc
        · exact Or.inr rfl
        · rcases List.mem_append.mp hc with hc | hc
          · exact Or.inl (hxw c hc)
          · rcases List.mem_cons.mp hc with rfl | hc
            · exact Or.inr rfl
            · exact Or.inl (hyw c hc)
  have hcolon : (':' : Char) ∉ ("github.com/" ++ x ++ "/" ++ y).data := by
    intro hc
    rcases hchars ':' hc with h | h
    · exact absurd h (by decide)
    · exact absurd h (by decide)
  have hmatch : matchRest ("github.com".data ++ '/' :: (x.data ++ '/' :: y.data)) =
      some (String.mk "github.com".data, String.mk x.data, '/' :: y.data) :=
    matchRest_run "github.com".data x.data ('/' :: y.data) (by decide) hx hG hxw
      (by
        intro c hc
        simp only [List.head?_cons, Option.some.injEq] at hc
        subst hc
        decide)
  have hmatch2 : matchRest ('g' :: ("ithub.com".data ++ '/' :: (x.data ++ '/' :: y.data))) =
      some (String.mk "github.com".data, String.mk x.data, '/' :: y.data) := hmatch
  have hcolon2 : (':' : Char) ∉
      'g' :: ("ithub.com".data ++ '/' :: (x.data ++ '/' :: y.data)) := hdata ▸ hcolon
  have hcolony : (':' : Char) ∉ '/' :: y.data := by
    intro hc
    rcases List.mem_cons.mp hc with h | h
    · exact absurd h (by decide)
    · exact absurd (hyw ':' h) (by decide)
  have hfind : findall (("github.com/" ++ x ++ "/" ++ y).data) =
      [(String.mk "github.com".data, String.mk x.data)] := by
    rw [hdata, findall_cons, matchAt_no_colon _ hcolon2, hmatch2]
    have hskip : findall ('/' :: y.data) = findall y.data := by
      rw [findall_cons, matchAt_no_colon _ hcolony, matchRest_none_head '/' _ (by decide)]
    simp only []
    rw [hskip, findall_all_word y.data hyw]
  have hval : String.mk "github.com".data ++ "/" ++ String.mk x.data =
      "github.com/" ++ x := by
    apply string_eq_of_data
    rw [string_data_append, string_data_append, string_data_append]
    simp
  have hextract : extract_repos_from_text ("github.com/" ++ x ++ "/" ++ y) =
      {"github.com/" ++ x} := by
    unfold extract_repos_from_text extractList
    rw [normalizeText_id _ (by
      intro c hc
      rcases hchars c hc with h | h
      · constructor <;> intro h2 <;> rw [h2] at h <;> exact absurd h (by decide)
      · subst h; exact ⟨by decide, by decide⟩)]
    rw [hfind]
    simp [hval]
  refine ⟨hextract, ?_⟩
  rw [hextract]
  intro hmem
  exact hne (Finset.mem_singleton.mp hmem)

/-- C10 witness: the concrete token `github.com/x/y` extracts to
`{github.com/x}`, which does not contain `x/y`. -/
theorem c10_schemeless_witness :
    extract_repos_from_text ("github.com/" ++ "x" ++ "/" ++ "y") =
      {"github.com/" ++ "x"} ∧
    ("x" ++ "/" ++ "y") ∉ extract_repos_from_text ("github.com/" ++ "x" ++ "/" ++ "y") :=
  c10_schemeless "x" "y" (by decide) (by decide) (by decide) (by decide) (by decide)

/-! ## Base64 and byte-level round trip -/

/-- Decoding an alphabet character written by the encoder recovers its
sextet. -/
theorem b64IndexOf_b64CharOf : ∀ n < 64, b64IndexOf (b64CharOf n) = some n := by
  decide

/-- The padding character is outside the alphabet. -/
theorem b64IndexOf_eq : b64IndexOf '=' = none := by
  decide

/-- Lenient base64 decoding inverts encoding, with any trailing
non-alphabet characters (the appended `'==='`) discarded. -/
theorem b64_roundtrip :
    ∀ (bs : List Nat), (∀ b ∈ bs, b < 256) →
      ∀ (pad : List Char), (∀ c ∈ pad, b64IndexOf c = none) →
        b64decodeLenient (b64encodeBytes bs ++ pad) = bs := by
  intro bs
  induction bs using b64encodeBytes.induct with
  | case1 =>
    intro _ pad hpad
    simp only [b64encodeBytes, List.nil_append, b64decodeLenient]
    rw [List.filterMap_eq_nil_iff.mpr hpad]
    rfl
  | case2 b1 =>
    intro hb pad hpad
    have h1 : b1 < 256 := hb b1 (by simp)
    have e1 : b64IndexOf (b64CharOf (b1 / 4)) = some (b1 / 4) :=
      b64IndexOf_b64CharOf _ (by omega)
    have e2 : b64IndexOf (b64CharOf (b1 % 4 * 16)) = some (b1 % 4 * 16) :=
      b64IndexOf_b64CharOf _ (by omega)
    simp only [b64encodeBytes, b64decodeLenient, List.cons_append, List.nil_append,
      List.filterMap_cons, e1, e2, b64IndexOf_eq, List.filterMap_eq_nil_iff.mpr hpad]
    show b64BytesOfSextets [b1 / 4, b1 % 4 * 16] = [b1]
    simp only [b64BytesOfSextets]
    congr 1
    omega
  | case3 b1 b2 =>
    intro hb pad hpad
    have h1 : b1 < 256 := hb b1 (by simp)
    have h2 : b2 < 256 := hb b2 (by simp)
    have e1 : b64IndexOf (b64CharOf (b1 / 4)) = some (b1 / 4) :=
      b64IndexOf_b64CharOf _ (by omega)
    have e2 : b64IndexOf (b64CharOf (b1 % 4 * 16 + b2 / 16)) =
        some (b1 % 4 * 16 + b2 / 16) := b64IndexOf_b64CharOf _ (by omega)
    have e3 : b64IndexOf (b64CharOf (b2 % 16 * 4)) = some (b2 % 16 * 4) :=
      b64IndexOf_b64CharOf _ (by omega)
    simp only [b64encodeBytes, b64decodeLenient, List.cons_append, List.nil_append,
      List.filterMap_cons, e1, e2, e3, b64IndexOf_eq, List.filterMap_eq_nil_iff.mpr hpad]
    show b64BytesOfSextets [b1 / 4, b1 % 4 * 16 + b2 / 16, b2 % 16 * 4] = [b1, b2]
    simp only [b64BytesOfSextets]
    congr 1
    · omega
    · congr 1
      omega
  | case4 b1 b2 b3 rest ih =>
    intro hb pad hpad
    have h1 : b1 < 256 := hb b1 (by simp)
    have h2 : b2 < 256 := hb b2 (by simp)
    have h3 : b3 < 256 := hb b3 (by simp)
    have hrest : ∀ b ∈ rest, b < 256 := fun b hbr => hb b (by simp [hbr])
    have ihr := ih hrest pad hpad
    have e1 : b64IndexOf (b64CharOf (b1 / 4)) = some (b1 / 4) :=
      b64IndexOf_b64CharOf _ (by omega)
    have e2 : b64IndexOf (b64CharOf (b1 % 4 * 16 + b2 / 16)) =
        some (b1 % 4 * 16 + b2 / 16) := b64IndexOf_b64CharOf _ (by omega)
    have e3 : b64IndexOf (b64CharOf (b2 % 16 * 4 + b3 / 64)) =
        some (b2 % 16 * 4 + b3 / 64) := b64IndexOf_b64CharOf _ (by omega)
    have e4 : b64IndexOf (b64CharOf (b3 % 64)) = some (b3 % 64) :=
      b64IndexOf_b64CharOf _ (by omega)
    simp only [b64decodeLenient] at ihr
    simp only [b64encodeBytes, b64decodeLenient, List.cons_append,
      List.filterMap_cons, e1, e2, e3, e4]
    show b64BytesOfSextets (b1 / 4 :: (b1 % 4 * 16 + b2 / 16) ::
      (b2 % 16 * 4 + b3 / 64) :: b3 % 64 ::
      (b64encodeBytes rest ++ pad).filterMap b64IndexOf) = b1 :: b2 :: b3 :: rest
    simp only [b64BytesOfSextets]
    rw [ihr]
    congr 1
    · omega
    · congr 1
      · omega
      · congr 1
        omega

/-- Re-decoding the code points of ASCII characters recovers the
characters. -/
theorem stringOfBytes_toNat (cs : List Char) (h : ∀ c ∈ cs, c.toNat < 128) :
    stringOfBytes (cs.map Char.toNat) = some cs := by
  unfold stringOfBytes
  rw [if_pos]
  · rw [List.map_map]
    congr 1
    conv_rhs => rw [← List.map_id cs]
    apply List.map_eq_map_iff.mpr
    intro c _
    exact Char.ofNat_toNat c
  · rw [List.all_eq_true]
    intro b hb
    rcases List.mem_map.mp hb with ⟨c, hc, rfl⟩
    simpa using Nat.lt_of_lt_of_le (h c hc) (by omega)

/-! ## JSON serialization and parsing of safe identifier strings -/

/-- Identifier characters (word characters and the slash) are printable
ASCII. -/
theorem safe_toNat (c : Char) (h : isWordChar c = true ∨ c = '/') :
    32 ≤ c.toNat ∧ c.toNat < 128 := by
  rcases h with h | h
  · simp only [isWordChar, decide_eq_true_eq] at h
    omega
  · subst h
    decide

theorem safe_ne_quote (c : Char) (h : isWordChar c = true ∨ c = '/') : c ≠ '"' := by
  rintro rfl
  rcases h with h | h
  · exact absurd h (by decide)
  · exact absurd h (by decide)

theorem safe_ne_backslash (c : Char) (h : isWordChar c = true ∨ c = '/') :
    c ≠ '\\' := by
  rintro rfl
  rcases h with h | h
  · exact absurd h (by decide)
  · exact absurd h (by decide)

/-- `json.dumps` leaves identifier characters unescaped. -/
theorem jsonEscapeChar_safe (c : Char) (h : isWordChar c = true ∨ c = '/') :
    jsonEscapeChar c = [c] := by
  have hr := safe_toNat c h
  have h10 : c ≠ '\n' := by
    rintro rfl
    exact absurd hr (by decide)
  unfold jsonEscapeChar
  rw [if_neg (safe_ne_quote c h), if_neg (safe_ne_backslash c h),
    if_neg (by omega), if_neg (by omega), if_neg h10, if_neg (by omega),
    if_neg (by omega), if_neg (by omega), if_pos (by omega)]

theorem flatten_map_singleton (l : List Char)
    (h : ∀ c ∈ l, jsonEscapeChar c = [c]) :
    (l.map jsonEscapeChar).flatten = l := by
  induction l with
  | nil => rfl
  | cons c rest ih =>
    simp only [List.map_cons, List.flatten_cons, h c (by simp)]
    rw [ih (fun c2 hc2 => h c2 (List.mem_cons_of_mem c hc2))]
    rfl

/-- The JSON string literal of a safe identifier is the identifier
between plain quotes. -/
theorem jsonQuoteString_safe (s : String)
    (h : ∀ c ∈ s.data, isWordChar c = true ∨ c = '/') :
    jsonQuoteString s = '"' :: (s.data ++ ['"']) := by
  unfold jsonQuoteString
  rw [flatten_map_singleton s.data (fun c hc => jsonEscapeChar_safe c (h c hc))]
  rfl

/-- Step: the closing quote ends the string body. -/
theorem parseStringBody_quote (tail : List Char) :
    parseStringBody ('"' :: tail) = some ([], tail) := by
  rw [parseStringBody.eq_def]
  simp only []
  rw [if_pos trivial]

/-- Step: a plain character (not a quote, not a backslash, not a
control character) is consumed as itself. -/
theorem parseStringBody_plain (c : Char) (rest : List Char) (h1 : c ≠ '"')
    (h2 : c ≠ '\\') (h3 : ¬ c.toNat < 32) :
    parseStringBody (c :: rest) =
      (parseStringBody rest).map (fun r => (c :: r.1, r.2)) := by
  rw [parseStringBody.eq_def]
  simp only []
  rw [if_neg h1, if_neg h2, if_neg h3]

/-- Reading a JSON string of safe characters stops at the closing quote
and returns the characters before it. -/
theorem parseStringBody_safe :
    ∀ (content tail : List Char), (∀ c ∈ content, isWordChar c = true ∨ c = '/') →
      parseStringBody (content ++ '"' :: tail) = some (content, tail) := by
  intro content
  induction content with
  | nil =>
    intro tail _
    exact parseStringBody_quote tail
  | cons c rest ih =>
    intro tail h
    have hc := h c (by simp)
    have hr := safe_toNat c hc
    show parseStringBody (c :: (rest ++ '"' :: tail)) = some (c :: rest, tail)
    rw [parseStringBody_plain c _ (safe_ne_quote c hc) (safe_ne_backslash c hc)
      (by omega), ih tail (fun c2 hc2 => h c2 (List.mem_cons_of_mem c hc2))]
    rfl

/-- Step equation of the element loop at an opening quote. -/
theorem parseItemsAux_step (fuel : Nat) (X : List Char) :
    parseItemsAux (fuel + 1) ('"' :: X) =
      match parseStringBody X with
      | none => none
      | some (content, rest2) =>
        match skipJsonWs rest2 with
        | ',' :: rest3 =>
          match parseItemsAux fuel (skipJsonWs rest3) with
          | some (items, rest4) => some (String.mk content :: items, rest4)
          | none => none
        | ']' :: rest3 => some ([String.mk content], rest3)
        | _ => none := rfl

theorem skipJsonWs_cons_ws (c : Char) (cs : List Char) (h : isJsonWs c = true) :
    skipJsonWs (c :: cs) = skipJsonWs cs := by
  simp [skipJsonWs, List.dropWhile_cons, h]

theorem skipJsonWs_cons_not (c : Char) (cs : List Char) (h : isJsonWs c = false) :
    skipJsonWs (c :: cs) = c :: cs := by
  simp [skipJsonWs, List.dropWhile_cons, h]

/-- A non-empty element list renders as its first string literal
followed by the rest. -/
theorem jsonItemsChars_cons (s : String) (rest : List String) :
    ∃ r, jsonItemsChars (s :: rest) = jsonQuoteString s ++ r := by
  cases rest with
  | nil => exact ⟨[], (List.append_nil _).symm⟩
  | cons s2 rest2 => exact ⟨_, rfl⟩

/-- The element loop reads back exactly the serialized elements of a
non-empty safe list, leaving the input after the closing bracket. -/
theorem parseItemsAux_items :
    ∀ (l : List String), l ≠ [] →
      (∀ s ∈ l, ∀ c ∈ s.data, isWordChar c = true ∨ c = '/') →
      ∀ (tail : List Char) (fuel : Nat),
        (jsonItemsChars l ++ '\n' :: ' ' :: ' ' :: ']' :: tail).length ≤ fuel →
        parseItemsAux fuel (jsonItemsChars l ++ '\n' :: ' ' :: ' ' :: ']' :: tail) =
          some (l, tail) := by
  intro l
  induction l with
  | nil => intro h; exact absurd rfl h
  | cons s rest ih =>
    intro _ hsafe tail fuel hfuel
    have hs : ∀ c ∈ s.data, isWordChar c = true ∨ c = '/' := hsafe s (by simp)
    have hquote := jsonQuoteString_safe s hs
    cases rest with
    | nil =>
      have hin : jsonItemsChars [s] ++ '\n' :: ' ' :: ' ' :: ']' :: tail =
          '"' :: (s.data ++ '"' :: ('\n' :: ' ' :: ' ' :: ']' :: tail)) := by
        show jsonQuoteString s ++ _ = _
        rw [hquote]
        simp
      rw [hin] at hfuel ⊢
      cases fuel with
      | zero => simp at hfuel
      | succ f =>
        rw [parseItemsAux_step f _]
        rw [parseStringBody_safe s.data _ hs]
        simp only []
        rw [skipJsonWs_cons_ws '\n' _ (by decide), skipJsonWs_cons_ws ' ' _ (by decide),
          skipJsonWs_cons_ws ' ' _ (by decide), skipJsonWs_cons_not ']' _ (by decide)]
        rfl
    | cons s2 rest2 =>
      have heq2 : jsonItemsChars (s :: s2 :: rest2) =
          jsonQuoteString s ++ ',' :: '\n' :: ' ' :: ' ' :: ' ' :: ' ' ::
            jsonItemsChars (s2 :: rest2) := rfl
      have hin : jsonItemsChars (s :: s2 :: rest2) ++ '\n' :: ' ' :: ' ' :: ']' :: tail =
          '"' :: (s.data ++ '"' :: (',' :: '\n' :: ' ' :: ' ' :: ' ' :: ' ' ::
            (jsonItemsChars (s2 :: rest2) ++ '\n' :: ' ' :: ' ' :: ']' :: tail))) := by
        rw [heq2, hquote]
        simp
      rw [hin] at hfuel ⊢
      cases fuel with
      | zero => simp at hfuel
      | succ f =>
        have hsafe2 : ∀ s3 ∈ s2 :: rest2, ∀ c ∈ s3.data,
            isWordChar c = true ∨ c = '/' :=
          fun s3 hs3 => hsafe s3 (List.mem_cons_of_mem s hs3)
        obtain ⟨r2, hr2⟩ := jsonItemsChars_cons s2 rest2
        have hskipitems : skipJsonWs (jsonItemsChars (s2 :: rest2) ++
            '\n' :: ' ' :: ' ' :: ']' :: tail) =
            jsonItemsChars (s2 :: rest2) ++ '\n' :: ' ' :: ' ' :: ']' :: tail := by
          rw [hr2, jsonQuoteString_safe s2 (hsafe2 s2 (by simp))]
          exact skipJsonWs_cons_not '"' _ (by decide)
        have hfuel2 : (jsonItemsChars (s2 :: rest2) ++
            '\n' :: ' ' :: ' ' :: ']' :: tail).length ≤ f := by
          simp only [List.length_cons, List.length_append] at hfuel ⊢
          omega
        rw [parseItemsAux_step f _]
        rw [parseStringBody_safe s.data _ hs]
        simp only []
        rw [skipJsonWs_cons_not ',' _ (by decide)]
        simp only []
        rw [skipJsonWs_cons_ws '\n' _ (by decide)]
        rw [skipJsonWs_cons_ws ' ' _ (by decide)]
        rw [skipJsonWs_cons_ws ' ' _ (by decide)]
        rw [skipJsonWs_cons_ws ' ' _ (by decide)]
        rw [skipJsonWs_cons_ws ' ' _ (by decide)]
        rw [hskipitems]
        rw [ih (by simp) hsafe2 tail f hfuel2]

/-- Parsing the serialized tracked document recovers the identifier
list, for identifier-safe strings. -/
theorem jsonParseTracked_dumps (l : List String)
    (hsafe : ∀ s ∈ l, ∀ c ∈ s.data, isWordChar c = true ∨ c = '/') :
    jsonParseTracked (jsonDumpsTracked l) = some l := by
  cases l with
  | nil => decide
  | cons s rest =>
    have hrepos : ∀ c ∈ ("repos" : String).data, isWordChar c = true ∨ c = '/' := by
      decide
    have hne : s :: rest ≠ [] := by simp
    obtain ⟨r2, hr2⟩ := jsonItemsChars_cons s rest
    have hhead : jsonItemsChars (s :: rest) =
        '"' :: (s.data ++ '"' :: r2) := by
      rw [hr2, jsonQuoteString_safe s (hsafe s (by simp))]
      simp
    have hdumps : jsonDumpsTracked (s :: rest) =
        '\x7b' :: '\n' :: ' ' :: ' ' :: '"' :: (("repos" : String).data ++
          '"' :: ':' :: ' ' :: '[' :: '\n' :: ' ' :: ' ' :: ' ' :: ' ' ::
          (jsonItemsChars (s :: rest) ++
            '\n' :: ' ' :: ' ' :: ']' :: '\n' :: ['\x7d'])) := by
      show '\x7b' :: '\n' :: ' ' :: ' ' :: jsonQuoteString "repos" ++ _ = _
      rw [jsonQuoteString_safe "repos" hrepos]
      simp
    rw [hdumps, jsonParseTracked.eq_def]
    rw [skipJsonWs_cons_not '\x7b' _ (by decide)]
    simp only []
    rw [skipJsonWs_cons_ws '\n' _ (by decide), skipJsonWs_cons_ws ' ' _ (by decide),
      skipJsonWs_cons_ws ' ' _ (by decide), skipJsonWs_cons_not '"' _ (by decide)]
    simp only []
    rw [parseStringBody_safe ("repos" : String).data _ hrepos]
    simp only []
    simp only [if_true]
    rw [skipJsonWs_cons_not ':' _ (by decide)]
    simp only []
    rw [skipJsonWs_cons_ws ' ' _ (by decide), skipJsonWs_cons_not '[' _ (by decide)]
    simp only []
    rw [skipJsonWs_cons_ws '\n' _ (by decide), skipJsonWs_cons_ws ' ' _ (by decide),
      skipJsonWs_cons_ws ' ' _ (by decide), skipJsonWs_cons_ws ' ' _ (by decide),
      skipJsonWs_cons_ws ' ' _ (by decide)]
    rw [show skipJsonWs (jsonItemsChars (s :: rest) ++
        '\n' :: ' ' :: ' ' :: ']' :: '\n' :: ['\x7d']) =
        jsonItemsChars (s :: rest) ++ '\n' :: ' ' :: ' ' :: ']' :: '\n' :: ['\x7d'] by
      rw [hhead]
      exact skipJsonWs_cons_not '"' _ (by decide)]
    rw [hhead, List.cons_append]
    simp only []
    rw [if_neg (by decide : ¬ ('"' : Char) = ']')]
    rw [← List.cons_append, ← hhead]
    rw [parseItemsAux_items (s :: rest) hne hsafe ('\n' :: ['\x7d']) _ (le_refl _)]
    simp only []
    rw [skipJsonWs_cons_ws '\n' _ (by decide), skipJsonWs_cons_not '\x7d' _ (by decide)]
    simp only []
    simp [skipJsonWs]

/-- The serialized elements of a safe list are ASCII. -/
theorem jsonItemsChars_ascii :
    ∀ (l : List String), (∀ s ∈ l, ∀ c ∈ s.data, isWordChar c = true ∨ c = '/') →
      ∀ c ∈ jsonItemsChars l, c.toNat < 128 := by
  intro l
  induction l with
  | nil => intro _ c hc; simp [jsonItemsChars] at hc
  | cons s rest ih =>
    intro hsafe c hc
    have hs := hsafe s (by simp)
    have hquote : ∀ c2 ∈ jsonQuoteString s, c2.toNat < 128 := by
      rw [jsonQuoteString_safe s hs]
      intro c2 hc2
      rcases List.mem_cons.mp hc2 with rfl | hc2
      · decide
      · rcases List.mem_append.mp hc2 with hc3 | hc3
        · exact (safe_toNat c2 (hs c2 hc3)).2
        · rcases List.mem_singleton.mp hc3 with rfl
          decide
    cases rest with
    | nil => exact hquote c hc
    | cons s2 rest2 =>
      have hc2 : c ∈ jsonQuoteString s ++
          ([',', '\n', ' ', ' ', ' ', ' '] ++ jsonItemsChars (s2 :: rest2)) := hc
      rcases List.mem_append.mp hc2 with h | h
      · exact hquote c h
      · rcases List.mem_append.mp h with h | h
        · exact (by decide : ∀ c2 ∈ ([',', '\n', ' ', ' ', ' ', ' '] : List Char),
            c2.toNat < 128) c h
        · exact ih (fun s3 hs3 => hsafe s3 (List.mem_cons_of_mem s hs3)) c h

/-- The serialized tracked document of a safe list is pure ASCII. -/
theorem jsonDumpsTracked_ascii (l : List String)
    (hsafe : ∀ s ∈ l, ∀ c ∈ s.data, isWordChar c = true ∨ c = '/') :
    ∀ c ∈ jsonDumpsTracked l, c.toNat < 128 := by
  have hrepos : ∀ c ∈ ("repos" : String).data, isWordChar c = true ∨ c = '/' := by
    decide
  intro c hc
  cases l with
  | nil =>
    revert c
    decide
  | cons s rest =>
    have hdumps : jsonDumpsTracked (s :: rest) =
        ['\x7b', '\n', ' ', ' ', '"'] ++ (("repos" : String).data ++
          (['"', ':', ' ', '[', '\n', ' ', ' ', ' ', ' '] ++
            (jsonItemsChars (s :: rest) ++ ['\n', ' ', ' ', ']', '\n', '\x7d']))) := by
      show '\x7b' :: '\n' :: ' ' :: ' ' :: jsonQuoteString "repos" ++ _ = _
      rw [jsonQuoteString_safe "repos" hrepos]
      simp
    rw [hdumps] at hc
    rcases List.mem_append.mp hc with h | h
    · exact (by decide : ∀ c2 ∈ (['\x7b', '\n', ' ', ' ', '"'] : List Char),
        c2.toNat < 128) c h
    · rcases List.mem_append.mp h with h | h
      · exact (by decide : ∀ c2 ∈ ("repos" : String).data, c2.toNat < 128) c h
      · rcases List.mem_append.mp h with h | h
        · exact (by decide :
            ∀ c2 ∈ (['"', ':', ' ', '[', '\n', ' ', ' ', ' ', ' '] : List Char),
              c2.toNat < 128) c h
        · rcases List.mem_append.mp h with h | h
          · exact jsonItemsChars_ascii (s :: rest) hsafe c h
          · exact (by decide :
              ∀ c2 ∈ (['\n', ' ', ' ', ']', '\n', '\x7d'] : List Char),
                c2.toNat < 128) c h

/-- The document decoding pipeline of `load_tracked` inverts the
serialization of `save_tracked`, for identifier-safe lists. -/
theorem decodeTrackedDoc_dumps (repos : List String)
    (hsafe : ∀ s ∈ repos, ∀ c ∈ s.data, isWordChar c = true ∨ c = '/') :
    decodeTrackedDoc
      (String.mk (b64encodeBytes ((jsonDumpsTracked repos).map Char.toNat))) =
      some repos := by
  have hascii := jsonDumpsTracked_ascii repos hsafe
  unfold decodeTrackedDoc
  show (match stringOfBytes (b64decodeLenient
      (b64encodeBytes ((jsonDumpsTracked repos).map Char.toNat) ++ ['=', '=', '='])) with
    | none => none
    | some cs => jsonParseTracked cs) = some repos
  rw [b64_roundtrip ((jsonDumpsTracked repos).map Char.toNat)
    (by
      intro b hb
      rcases List.mem_map.mp hb with ⟨c2, hc2, rfl⟩
      have := hascii c2 hc2
      omega)
    ['=', '=', '=']
    (by
      intro c2 hc2
      rcases List.mem_cons.mp hc2 with rfl | hc2
      · decide
      · rcases List.mem_cons.mp hc2 with rfl | hc2
        · decide
        · rcases List.mem_singleton.mp hc2 with rfl
          decide)]
  rw [stringOfBytes_toNat (jsonDumpsTracked repos) hascii]
  exact jsonParseTracked_dumps repos hsafe

/-- A 200 response is neither absence nor an HTTP error: `load_tracked`
proceeds to decode the body. -/
theorem load_tracked_200 (content sha : String) :
    load_tracked ⟨200, content, sha⟩ =
      match decodeTrackedDoc content with
      | some repos => .ok (repos, some sha)
      | none => .error .decodeError := rfl

/-! ## C7: store round trip -/

/-- C7: writing an identifier list with `save_tracked` (serialize under
the single `repos` field, base64-encode, PUT with the expected version
token) and reading it back with `load_tracked` (base64-decode,
JSON-parse, take the `repos` field) yields exactly the list that was
written, and the successful write returns the version token the store
assigned to the new document — the one the subsequent read reports. -/
theorem c7_roundtrip (repos : List String) (st : RemoteStore) (newSha : String)
    (hsafe : ∀ s ∈ repos, ∀ c ∈ s.data, isWordChar c = true ∨ c = '/') :
    ∃ st2 : RemoteStore,
      save_tracked repos (storeSha st) st newSha = .ok (st2, newSha) ∧
      load_tracked (storeGet st2) = .ok (repos, some newSha) := by
  refine ⟨⟨some (String.mk (b64encodeBytes ((jsonDumpsTracked repos).map Char.toNat)),
    newSha)⟩, ?_, ?_⟩
  · unfold save_tracked storePut
    simp
  · show load_tracked ⟨200,
      String.mk (b64encodeBytes ((jsonDumpsTracked repos).map Char.toNat)), newSha⟩ =
      .ok (repos, some newSha)
    rw [load_tracked_200, decodeTrackedDoc_dumps repos hsafe]

/-- C7 witness: the concrete list `["a/b"]` round-trips through an
empty store under a fresh token. -/
theorem c7_roundtrip_witness :
    ∃ st2 : RemoteStore,
      save_tracked ["a/b"] (storeSha ⟨none⟩) ⟨none⟩ "sha1" = .ok (st2, "sha1") ∧
      load_tracked (storeGet st2) = .ok (["a/b"], some "sha1") :=
  c7_roundtrip ["a/b"] ⟨none⟩ "sha1" (by decide)

end Bot